import Mathlib

/-!
Shallow embedding of the color utilities of the shades-and-tints repository
(src/src/utilities.ts).  JavaScript numbers are modelled as exact rationals
(`ℚ`); JavaScript strings as Lean `String` (a structure over `List Char`).
Each definition transcribes one piece of the source file; doc comments name
the transcribed function.
-/

attribute [local semireducible] Rat.add Rat.mul Rat.sub Rat.inv

/-- Decides the regex character class `\d` of JavaScript: the ASCII digits. -/
def isDigitC (c : Char) : Bool := 48 ≤ c.toNat && c.toNat ≤ 57

/-- Decides the regex character class `\s` restricted to the ASCII whitespace
characters (space 32, tab 9, line feed 10, vertical tab 11, form feed 12,
carriage return 13). -/
def isSpaceC (c : Char) : Bool :=
  c.toNat = 32 || c.toNat = 9 || c.toNat = 10 || c.toNat = 11 ||
    c.toNat = 12 || c.toNat = 13

/-- The ASCII character of a decimal digit. -/
def charOfDigit (d : ℕ) : Char := Char.ofNat (48 + d)

/-- Numeric value of a big-endian list of decimal digit characters; this is how
`parseInt(s, 10)` evaluates a string of digits. -/
def digitsVal (l : List Char) : ℕ :=
  l.foldl (fun a c => 10 * a + (c.toNat - 48)) 0

/-- Fuel-driven rendering of the decimal digits of `n` (most significant
first), prepended to `acc`. -/
def natCharsAux : ℕ → ℕ → List Char → List Char
  | 0, _, acc => acc
  | f + 1, n, acc =>
    if n = 0 then acc else natCharsAux f (n / 10) (charOfDigit (n % 10) :: acc)

/-- Decimal rendering of a natural number, as JavaScript renders an integral
number inside a template literal. -/
def natChars (n : ℕ) : List Char :=
  if n = 0 then ['0'] else natCharsAux n n []

/-- Decimal rendering of an integer. -/
def intChars (i : ℤ) : List Char :=
  if i < 0 then '-' :: natChars (-i).toNat else natChars i.toNat

/-- Rendering of `n` as exactly `k` decimal digits (left-padded with zeros). -/
def padCharsAux : ℕ → ℕ → List Char → List Char
  | 0, _, acc => acc
  | k + 1, n, acc => padCharsAux k (n / 10) (charOfDigit (n % 10) :: acc)

/-- Rendering of `n % 10^k` as exactly `k` decimal digits. -/
def padChars (k n : ℕ) : List Char := padCharsAux k n []

/-- First exponent `j` with `k ≤ j < k + fuel` such that `d` divides `10 ^ j`
(`k + fuel` when there is none). -/
def decExpFrom (d : ℕ) : ℕ → ℕ → ℕ
  | k, 0 => k
  | k, fuel + 1 => if 10 ^ k % d = 0 then k else decExpFrom d (k + 1) fuel

/-- The least exponent `j ≤ d` such that `d` divides `10 ^ j`, when one
exists. -/
def decExp (d : ℕ) : ℕ := decExpFrom d 0 (d + 1)

/-- Splits a natural number as `s · 10 ^ t` with `s` not divisible by ten
(for positive input): the significand and the count of trailing zeros. -/
def stripZerosAux : ℕ → ℕ → ℕ × ℕ
  | 0, n => (n, 0)
  | fuel + 1, n =>
    if n % 10 = 0 ∧ n ≠ 0 then
      let p := stripZerosAux fuel (n / 10)
      (p.1, p.2 + 1)
    else (n, 0)

/-- The significand and trailing-zero count of a natural number. -/
def stripZeros (n : ℕ) : ℕ × ℕ := stripZerosAux n n

/-- The exponent form `d.dd…e±X` of JavaScript number-to-string conversion
(ECMA-262 `Number::toString`, the cases `n ≤ -6` and `n > 21` of the decimal
position `n`): used for positive values below `10⁻⁶` and from `10²¹` up.
The significand digits are written with the decimal point after the first
digit, followed by `e`, the exponent sign and the decimal exponent. -/
def renderExpChars (q : ℚ) : List Char :=
  let E := decExp q.den
  let N := q.num.toNat * 10 ^ E / q.den
  let p := stripZeros N
  let ds := natChars p.1
  let e : ℤ := (ds.length : ℤ) + (p.2 : ℤ) - (E : ℤ) - 1
  (ds.headD '0' :: (if ds.tail = [] then [] else '.' :: ds.tail)) ++
    'e' :: (if e < 0 then '-' :: natChars (-e).toNat else '+' :: natChars e.toNat)

/-- The plain decimal form of JavaScript number-to-string conversion
(ECMA-262 `Number::toString`, the cases `-6 < n ≤ 21` of the decimal position
`n`) of a nonnegative rational whose denominator divides a power of ten: the
integer part, then a dot and the (minimal, nonempty) fraction digits when the
number is not an integer. -/
def renderDecChars (q : ℚ) : List Char :=
  let k := decExp q.den
  if k = 0 then natChars q.num.toNat
  else
    let m := q.num.toNat * 10 ^ k / q.den
    natChars (m / 10 ^ k) ++ '.' :: padChars k (m % 10 ^ k)

/-- Rendering of a nonnegative rational whose denominator divides a power of
ten, as JavaScript renders such a number inside a template literal: zero
renders as `"0"`, positive values below `10⁻⁶` or at least `10²¹` render in
exponent form, and everything in between renders as a plain decimal. -/
def renderPosChars (q : ℚ) : List Char :=
  if q = 0 then ['0']
  else if q < 1 / 10 ^ 6 ∨ 10 ^ 21 ≤ q then renderExpChars q
  else renderDecChars q

/-- Decimal rendering of a rational number with finite decimal expansion,
modelling the JavaScript number-to-string conversion used by template
literals for the numbers this program manipulates. -/
def renderNumChars (q : ℚ) : List Char :=
  if q < 0 then '-' :: renderPosChars (-q) else renderPosChars q

/-- Truncation toward zero, as JavaScript's `%` operator truncates. -/
def truncQ (q : ℚ) : ℤ := if q < 0 then ⌈q⌉ else ⌊q⌋

/-- The JavaScript remainder operator `x % y` on numbers. -/
def jsMod (x y : ℚ) : ℚ := x - y * truncQ (x / y)

/-- JavaScript's `Math.round`: round half toward positive infinity. -/
def jsRound (x : ℚ) : ℤ := ⌊x + 1 / 2⌋

/-- Transcription of `rgbToHsl` (src/src/utilities.ts lines 24-59): convert
RGB in `[0,255]` with alpha to `(h, s, l, a)` with hue in degrees, saturation
and lightness in percent, alpha passed through. -/
def rgbToHsl (r0 g0 b0 a : ℚ) : ℚ × ℚ × ℚ × ℚ :=
  let r := r0 / 255
  let g := g0 / 255
  let b := b0 / 255
  let maxv := max r (max g b)
  let minv := min r (min g b)
  let delta := maxv - minv
  let l := (maxv + minv) / 2
  let s := if delta = 0 then 0
    else if l > 1 / 2 then delta / (2 - maxv - minv) else delta / (maxv + minv)
  let h := if delta = 0 then 0
    else
      (if maxv = r then (g - b) / delta + (if g < b then 6 else 0)
       else if maxv = g then (b - r) / delta + 2
       else if maxv = b then (r - g) / delta + 4
       else 0) / 6
  (h * 360, s * 100, l * 100, a)

/-- The sector computation of `hslToRgb` (src/src/utilities.ts lines 77-102):
the normalized `(r, g, b)` channels (already offset by `m`) for the given hue
(degrees), saturation and lightness (percent). -/
def hslChan (h s l : ℚ) : ℚ × ℚ × ℚ :=
  let sN := s / 100
  let lN := l / 100
  let c := (1 - |2 * lN - 1|) * sN
  let x := c * (1 - |jsMod (h / 60) 2 - 1|)
  let m := lN - c / 2
  let rgb : ℚ × ℚ × ℚ :=
    if h < 60 then (c, x, 0)
    else if h < 120 then (x, c, 0)
    else if h < 180 then (0, c, x)
    else if h < 240 then (0, x, c)
    else if h < 300 then (x, 0, c)
    else (c, 0, x)
  (rgb.1 + m, rgb.2.1 + m, rgb.2.2 + m)

/-- The output template of `hslToRgb` (src/src/utilities.ts line 104): the
characters of the string `rgba(r, g, b, a)`. -/
def rgbaChars (r g b : ℤ) (a : ℚ) : List Char :=
  "rgba(".data ++ intChars r ++ ", ".data ++ intChars g ++ ", ".data ++
    intChars b ++ ", ".data ++ renderNumChars a ++ ")".data

/-- Transcription of `hslToRgb` (src/src/utilities.ts lines 77-105): convert
HSL with alpha to the canonical `rgba(r, g, b, a)` string, rounding each
channel to the nearest integer. -/
def hslToRgb (h s l a : ℚ) : String :=
  String.mk (rgbaChars (jsRound ((hslChan h s l).1 * 255))
    (jsRound ((hslChan h s l).2.1 * 255))
    (jsRound ((hslChan h s l).2.2 * 255)) a)

/-- The canonical rendering `rgba(R, G, B, A)` of an RGBA tuple; this is the
string shape produced by `hslToRgb` and expected back by `extractRGBA`. -/
def formatRGBA (r g b : ℕ) (a : ℚ) : String :=
  String.mk (rgbaChars r g b a)

/-- Consumes one expected character. -/
def expectC (c : Char) : List Char → Option (List Char)
  | [] => none
  | x :: xs => if x = c then some xs else none

/-- Consumes the optional `a` of the regex atom `rgba?`. -/
def optA : List Char → List Char
  | 'a' :: r => r
  | l => l

/-- Consumes the regex atom `\s*`. -/
def skipS (l : List Char) : List Char := l.dropWhile isSpaceC

/-- Consumes the regex atom `(\d+)`: a nonempty maximal run of digits. -/
def digits1 (l : List Char) : Option (List Char × List Char) :=
  let p := l.span isDigitC
  if p.1.isEmpty then none else some (p.1, p.2)

/-- Consumes the regex atom `(\d*\.?\d+)` with JavaScript backtracking
semantics: a maximal run of digits, optionally extended by a dot and a
further nonempty maximal run of digits. -/
def alphaTok (l : List Char) : Option (List Char × List Char) :=
  let p := l.span isDigitC
  match p.2 with
  | '.' :: r2 =>
    let p2 := r2.span isDigitC
    if p2.1.isEmpty then (if p.1.isEmpty then none else some (p.1, p.2))
    else some (p.1 ++ '.' :: p2.1, p2.2)
  | _ => if p.1.isEmpty then none else some (p.1, p.2)

/-- The four capture groups of the color regex: the three digit groups and the
optional alpha group. -/
abbrev MatchGroups := List Char × List Char × List Char × Option (List Char)

/-- Consumes the optional regex group `(?:,\s*(\d*\.?\d+))?`. -/
def optionalAlpha (l : List Char) : Option (Option (List Char) × List Char) :=
  match l with
  | ',' :: r =>
    match alphaTok (skipS r) with
    | none => none
    | some (t, r2) => some (some t, r2)
  | _ => some (none, l)

/-- Matches the regex `rgba?\s*\(\s*(\d+),\s*(\d+),\s*(\d+)(?:,\s*(\d*\.?\d+))?\s*\)`
of src/src/utilities.ts line 134 at the start of `l`, returning the capture
groups. -/
def matchFrom (l : List Char) : Option MatchGroups := do
  let l ← expectC 'r' l
  let l ← expectC 'g' l
  let l ← expectC 'b' l
  let l := optA l
  let l ← expectC '(' (skipS l)
  let (d1, l) ← digits1 (skipS l)
  let l ← expectC ',' l
  let (d2, l) ← digits1 (skipS l)
  let l ← expectC ',' l
  let (d3, l) ← digits1 (skipS l)
  let (al, l) ← optionalAlpha l
  let _ ← expectC ')' (skipS l)
  return (d1, d2, d3, al)

/-- The unanchored search `String.prototype.match` performs: try the regex at
every start position, left to right. -/
def rgbaSearch : List Char → Option MatchGroups
  | [] => none
  | c :: r =>
    match matchFrom (c :: r) with
    | some g => some g
    | none => rgbaSearch r

/-- JavaScript `parseFloat` on a token matched by `(\d*\.?\d+)`: integer part,
then fraction digits scaled by a power of ten. -/
def parseFloatTok (t : List Char) : ℚ :=
  let p := t.span isDigitC
  match p.2 with
  | '.' :: f =>
    let f' := f.takeWhile isDigitC
    (digitsVal p.1 : ℚ) + (digitsVal f' : ℚ) / 10 ^ f'.length
  | _ => (digitsVal p.1 : ℚ)

/-- Transcription of `extractRGBA` (src/src/utilities.ts lines 128-145): the
color parser.  `'white'` is special-cased; otherwise the rgba regex is
searched for in the string; on `null` or no match the fallback
`(0, 0, 0, 1)` (opaque black) is returned. -/
def extractRGBA (color : Option String) : ℚ × ℚ × ℚ × ℚ :=
  if color = some "white" then (255, 255, 255, 1)
  else
    match color with
    | none => (0, 0, 0, 1)
    | some s =>
      match rgbaSearch s.data with
      | some (d1, d2, d3, al) =>
        ((digitsVal d1 : ℚ), (digitsVal d2 : ℚ), (digitsVal d3 : ℚ),
          match al with
          | some t => parseFloatTok t
          | none => 1)
      | none => (0, 0, 0, 1)

/-- The lightness step of `calculateShades` (src/src/utilities.ts lines
171-180): 10 by default, 0 at black, `l / count` when ten-point steps would
overshoot. -/
def shadeStep (l : ℚ) (count : ℕ) : ℚ :=
  if l = 0 then 0 else if (count : ℚ) * 10 > l then l / count else 10

/-- The lightness step of `calculateTints` (src/src/utilities.ts lines
216-224): 10 by default, 0 at white, `(100 - l) / count` when ten-point steps
would overshoot. -/
def tintStep (l : ℚ) (count : ℕ) : ℚ :=
  if l = 100 then 0
  else if (count : ℚ) * 10 > 100 - l then (100 - l) / count else 10

/-- The HSLA tuple both generators start from: parse the color string and
convert to HSL (src/src/utilities.ts lines 164-167 and 210-213). -/
def baseHSLA (c : String) : ℚ × ℚ × ℚ × ℚ :=
  let rgba := extractRGBA (some c)
  rgbToHsl rgba.1 rgba.2.1 rgba.2.2.1 rgba.2.2.2

/-- The lightness values of the returned shades, in returned order: the loop
of `calculateShades` computes `max 0 (l - (i+1)·step)` for `i = 0, …, n-1`
and the result list is reversed. -/
def calculateShadesL (c : String) (n : ℕ) : List ℚ :=
  let l := (baseHSLA c).2.2.1
  let step := shadeStep l n
  ((List.range n).map fun i : ℕ => max 0 (l - ((i : ℚ) + 1) * step)).reverse

/-- Transcription of `calculateShades` (src/src/utilities.ts lines 162-190):
darken the base color `n` times and reverse the collected results. -/
def calculateShades (c : String) (n : ℕ) : List String :=
  let hsla := baseHSLA c
  let step := shadeStep hsla.2.2.1 n
  ((List.range n).map fun i : ℕ =>
    hslToRgb hsla.1 hsla.2.1 (max 0 (hsla.2.2.1 - ((i : ℚ) + 1) * step))
      hsla.2.2.2).reverse

/-- The lightness values of the returned tints, in returned order: the loop of
`calculateTints` computes `min 100 (l + (i+1)·step)` for `i = 0, …, n-1`,
without reversal. -/
def calculateTintsL (c : String) (n : ℕ) : List ℚ :=
  let l := (baseHSLA c).2.2.1
  let step := tintStep l n
  (List.range n).map fun i : ℕ => min 100 (l + ((i : ℚ) + 1) * step)

/-- Transcription of `calculateTints` (src/src/utilities.ts lines 208-235):
lighten the base color `n` times (no reversal). -/
def calculateTints (c : String) (n : ℕ) : List String :=
  let hsla := baseHSLA c
  let step := tintStep hsla.2.2.1 n
  (List.range n).map fun i : ℕ =>
    hslToRgb hsla.1 hsla.2.1 (min 100 (hsla.2.2.1 + ((i : ℚ) + 1) * step))
      hsla.2.2.2

/-! ### General helper lemmas -/

/-- The fallback path of `extractRGBA`: any non-`white` input the regex search
rejects yields opaque black. -/
theorem extractRGBA_no_match (s : String) (hw : s ≠ "white")
    (hns : rgbaSearch s.data = none) : extractRGBA (some s) = (0, 0, 0, 1) := by
  unfold extractRGBA
  rw [if_neg (by simpa using hw)]
  simp [hns]

/-- `parseFloatTok` only ever produces nonnegative values. -/
theorem parseFloatTok_nonneg (t : List Char) : 0 ≤ parseFloatTok t := by
  unfold parseFloatTok
  dsimp only
  split
  · positivity
  · positivity

/-- `extractRGBA` always returns three natural-number channels and a
nonnegative alpha. -/
theorem extractRGBA_shape (s : Option String) :
    ∃ ri gi bi : ℕ, ∃ aq : ℚ,
      extractRGBA s = ((ri : ℚ), (gi : ℚ), (bi : ℚ), aq) ∧ 0 ≤ aq := by
  unfold extractRGBA
  split
  · exact ⟨255, 255, 255, 1, by norm_num, by norm_num⟩
  · rcases s with _ | s
    · exact ⟨0, 0, 0, 1, by norm_num, by norm_num⟩
    · dsimp only
      rcases rgbaSearch s.data with _ | ⟨d1, d2, d3, al⟩
      · exact ⟨0, 0, 0, 1, by norm_num, by norm_num⟩
      · rcases al with _ | t
        · exact ⟨digitsVal d1, digitsVal d2, digitsVal d3, 1, rfl, by norm_num⟩
        · exact ⟨digitsVal d1, digitsVal d2, digitsVal d3, parseFloatTok t,
            rfl, parseFloatTok_nonneg t⟩

/-- Each channel `extractRGBA` returns is nonnegative. -/
theorem extractRGBA_nonneg (s : Option String) :
    0 ≤ (extractRGBA s).1 ∧ 0 ≤ (extractRGBA s).2.1 ∧
      0 ≤ (extractRGBA s).2.2.1 ∧ 0 ≤ (extractRGBA s).2.2.2 := by
  obtain ⟨ri, gi, bi, aq, he, ha⟩ := extractRGBA_shape s
  rw [he]
  exact ⟨Nat.cast_nonneg ri, Nat.cast_nonneg gi, Nat.cast_nonneg bi, ha⟩

/-- The lightness `rgbToHsl` computes from nonnegative channels is
nonnegative. -/
theorem rgbToHsl_l_nonneg (r g b a : ℚ) (hr : 0 ≤ r) (hg : 0 ≤ g)
    (hb : 0 ≤ b) : 0 ≤ (rgbToHsl r g b a).2.2.1 := by
  simp only [rgbToHsl]
  have h1 : (0:ℚ) ≤ r / 255 := by positivity
  have h2 : (0:ℚ) ≤ g / 255 := by positivity
  have h3 : (0:ℚ) ≤ b / 255 := by positivity
  have hmax : (0:ℚ) ≤ max (r / 255) (max (g / 255) (b / 255)) :=
    le_trans h1 (le_max_left _ _)
  have hmin : (0:ℚ) ≤ min (r / 255) (min (g / 255) (b / 255)) :=
    le_min h1 (le_min h2 h3)
  positivity

/-- The base lightness of any color string is nonnegative. -/
theorem baseHSLA_l_nonneg (c : String) : 0 ≤ (baseHSLA c).2.2.1 := by
  unfold baseHSLA
  obtain ⟨h1, h2, h3, _⟩ := extractRGBA_nonneg (some c)
  exact rgbToHsl_l_nonneg _ _ _ _ h1 h2 h3

/-! ### Claim theorems -/

/-- C4: on null input, the empty string, or any string that matches neither
the literal `white` nor the rgba regex anywhere, `extractRGBA` returns
exactly opaque black `(0, 0, 0, 1)` (it is a total function, so it never
throws); in particular on `"not-a-color"`. -/
theorem parse_fallback_black :
    extractRGBA none = (0, 0, 0, 1) ∧
    extractRGBA (some "") = (0, 0, 0, 1) ∧
    extractRGBA (some "not-a-color") = (0, 0, 0, 1) ∧
    ∀ s : String, s ≠ "white" → rgbaSearch s.data = none →
      extractRGBA (some s) = (0, 0, 0, 1) :=
  ⟨by decide, by decide, by decide, fun s hw hns => extractRGBA_no_match s hw hns⟩

/-- Witness for C4 at the concrete rejected input `"hsl(1,2,3)"`. -/
theorem parse_fallback_black_witness :
    extractRGBA (some "hsl(1,2,3)") = (0, 0, 0, 1) :=
  parse_fallback_black.2.2.2 "hsl(1,2,3)" (by decide) (by decide)

/-- C9: at the degenerate boundaries the step is zero and every output equals
the (reformatted) base: five shades of black are all `rgba(0, 0, 0, 1)` and
three tints of white are all `rgba(255, 255, 255, 1)`. -/
theorem boundary_shades_tints :
    calculateShades "rgba(0,0,0,1)" 5 = List.replicate 5 "rgba(0, 0, 0, 1)" ∧
    calculateTints "rgba(255,255,255,1)" 3 =
      List.replicate 3 "rgba(255, 255, 255, 1)" := by
  constructor
  · decide
  · decide

/-- C6 counterexample: `"rgb(10 , 20, 30)"` (whitespace before a comma) is
NOT accepted — the regex search fails and the parser falls back to black —
while a string that merely contains an `rgb(...)` fragment surrounded by
other text IS accepted, contradicting both halves of the claim. -/
theorem accepted_forms_counterexample :
    rgbaSearch ("rgb(10 , 20, 30)".data) = none ∧
    extractRGBA (some "rgb(10 , 20, 30)") = (0, 0, 0, 1) ∧
    extractRGBA (some "text rgb(1, 2, 3) text") = (1, 2, 3, 1) := by
  refine ⟨by decide, by decide, by decide⟩

/-- C6 amended: `extractRGBA` accepts the literal `white` and any string in
which the rgba regex matches somewhere (whitespace is allowed after commas,
after `rgb`/`rgba`, after `(` and before `)`, but not before a comma);
surrounding text does not prevent a match, and everything else falls back to
black. -/
theorem accepted_forms_amended :
    extractRGBA (some "white") = (255, 255, 255, 1) ∧
    extractRGBA (some "rgb(10, 20, 30)") = (10, 20, 30, 1) ∧
    extractRGBA (some "rgba( 10,  20, 30, 0.25 )") = (10, 20, 30, 1/4) ∧
    extractRGBA (some "rgb (1,2,3)") = (1, 2, 3, 1) ∧
    extractRGBA (some "rgb(10 , 20, 30)") = (0, 0, 0, 1) ∧
    extractRGBA (some "text rgb(1, 2, 3) text") = (1, 2, 3, 1) ∧
    ∀ s : String, s ≠ "white" → rgbaSearch s.data = none →
      extractRGBA (some s) = (0, 0, 0, 1) :=
  ⟨by decide, by decide, by decide, by decide, by decide, by decide,
    fun s hw hns => extractRGBA_no_match s hw hns⟩

/-- Witness for the amended C6 at the concrete rejected input `"#ff0000"`. -/
theorem accepted_forms_amended_witness :
    extractRGBA (some "#ff0000") = (0, 0, 0, 1) :=
  accepted_forms_amended.2.2.2.2.2.2 "#ff0000" (by decide) (by decide)

/-- C7 counterexample: for `generateShades("rgba(255,0,0,1)", 10)` the
lightness values of the RETURNED entries are `[0, 5, …, 45]` — strictly
increasing, starting (not ending) at `L = 0` — because the computed sequence
is reversed before being returned. -/
theorem adaptive_shades_counterexample :
    calculateShadesL "rgba(255,0,0,1)" 10 =
      [0, 5, 10, 15, 20, 25, 30, 35, 40, 45] ∧
    ¬ List.Chain' (· > ·) (calculateShadesL "rgba(255,0,0,1)" 10) ∧
    (calculateShadesL "rgba(255,0,0,1)" 10).getLast? = some 45 ∧
    (45 : ℚ) ≠ 0 := by
  have he : calculateShadesL "rgba(255,0,0,1)" 10 =
      [0, 5, 10, 15, 20, 25, 30, 35, 40, 45] := by decide
  refine ⟨he, ?_, by decide, by decide⟩
  rw [he]
  simp only [List.chain'_cons, List.chain'_singleton]
  norm_num

/-- C7 amended: the base lightness is 50, the redistributed step is
`50 / 10 = 5`, and the ten returned shades have strictly INCREASING lightness
`0, 5, …, 45` (the reverse of the computed darkest-last sequence), with
exactly one entry clamped at `L = 0` and no duplicates; the returned list has
ten entries and its first entry is the fully darkened `"rgba(0, 0, 0, 1)"`. -/
theorem adaptive_shades_amended :
    (baseHSLA "rgba(255,0,0,1)").2.2.1 = 50 ∧
    shadeStep (baseHSLA "rgba(255,0,0,1)").2.2.1 10 = 5 ∧
    calculateShadesL "rgba(255,0,0,1)" 10 =
      [0, 5, 10, 15, 20, 25, 30, 35, 40, 45] ∧
    List.Chain' (· < ·) (calculateShadesL "rgba(255,0,0,1)" 10) ∧
    (calculateShadesL "rgba(255,0,0,1)" 10).count 0 = 1 ∧
    (calculateShades "rgba(255,0,0,1)" 10).length = 10 ∧
    (calculateShades "rgba(255,0,0,1)" 10).head? = some "rgba(0, 0, 0, 1)" := by
  have he : calculateShadesL "rgba(255,0,0,1)" 10 =
      [0, 5, 10, 15, 20, 25, 30, 35, 40, 45] := by decide
  refine ⟨by decide, by decide, he, ?_, by decide, by decide, by decide⟩
  rw [he]
  simp only [List.chain'_cons, List.chain'_singleton]
  norm_num

/-- C5 counterexample: the parser clamps nothing — `"rgb(999, 0, 0)"` parses
to a red channel of 999 > 255 and `"rgba(0, 0, 0, 3)"` to an alpha of
3 > 1. -/
theorem parse_ranges_counterexample :
    extractRGBA (some "rgb(999, 0, 0)") = (999, 0, 0, 1) ∧
    ¬ ((999 : ℚ) ≤ 255) ∧
    extractRGBA (some "rgba(0, 0, 0, 3)") = (0, 0, 0, 3) ∧
    ¬ ((3 : ℚ) ≤ 1) := by
  refine ⟨by decide, by decide, by decide, by decide⟩

/-- C5 amended: for every input the parser returns three natural-number
channels (nonnegative integers, with no upper bound enforced) and a
nonnegative alpha (no upper bound enforced), and the alpha defaults to 1
whenever the matched color had no alpha group. -/
theorem parse_ranges_amended :
    (∀ s : Option String, ∃ ri gi bi : ℕ, ∃ aq : ℚ,
        extractRGBA s = ((ri : ℚ), (gi : ℚ), (bi : ℚ), aq) ∧ 0 ≤ aq) ∧
    ∀ (s : String) (d1 d2 d3 : List Char),
      rgbaSearch s.data = some (d1, d2, d3, none) →
      (extractRGBA (some s)).2.2.2 = 1 := by
  refine ⟨extractRGBA_shape, ?_⟩
  intro s d1 d2 d3 h
  by_cases hw : s = "white"
  · subst hw
    rw [show rgbaSearch "white".data = none from by decide] at h
    exact absurd h (by simp)
  · unfold extractRGBA
    rw [if_neg (by simpa using hw)]
    simp [h]

/-- Witness for the amended C5: a concrete alpha-free parse defaults to 1. -/
theorem parse_ranges_amended_witness :
    (extractRGBA (some "rgb(1, 2, 3)")).2.2.2 = 1 :=
  parse_ranges_amended.2 "rgb(1, 2, 3)" ['1'] ['2'] ['3'] (by decide)

/-- The shade generator always returns exactly the requested number of
entries. -/
theorem calculateShades_length (c : String) (n : ℕ) :
    (calculateShades c n).length = n := by
  have h : calculateShades c n =
      ((List.range n).map fun i : ℕ =>
        hslToRgb (baseHSLA c).1 (baseHSLA c).2.1
          (max 0 ((baseHSLA c).2.2.1 -
            ((i : ℚ) + 1) * shadeStep (baseHSLA c).2.2.1 n))
          (baseHSLA c).2.2.2).reverse := rfl
  rw [h, List.length_reverse, List.length_map, List.length_range]

/-- The tint generator always returns exactly the requested number of
entries. -/
theorem calculateTints_length (c : String) (n : ℕ) :
    (calculateTints c n).length = n := by
  have h : calculateTints c n =
      (List.range n).map fun i : ℕ =>
        hslToRgb (baseHSLA c).1 (baseHSLA c).2.1
          (min 100 ((baseHSLA c).2.2.1 +
            ((i : ℚ) + 1) * tintStep (baseHSLA c).2.2.1 n))
          (baseHSLA c).2.2.2 := rfl
  rw [h, List.length_map, List.length_range]

/-- C8 counterexample: for the parseable color `"rgb(999, 0, 0)"` the base
lightness is `3330/17 ≈ 195.9 > 100`, so at `count = 0` the tint
redistribution comparison `0 × 10 > 100 − L₀` is TRUE and the code computes
`(100 − L₀) / 0` — the comparison does not guard the division for this
input. -/
theorem count_invariant_counterexample :
    (baseHSLA "rgb(999, 0, 0)").2.2.1 = 3330 / 17 ∧
    ¬ ((baseHSLA "rgb(999, 0, 0)").2.2.1 ≤ 100) ∧
    ((0 : ℚ) * 10 > 100 - (baseHSLA "rgb(999, 0, 0)").2.2.1) ∧
    tintStep (baseHSLA "rgb(999, 0, 0)").2.2.1 0 =
      (100 - (baseHSLA "rgb(999, 0, 0)").2.2.1) / ((0 : ℕ) : ℚ) ∧
    tintStep (baseHSLA "rgb(999, 0, 0)").2.2.1 0 ≠ 10 := by
  refine ⟨by decide, by decide, by decide, by decide, by decide⟩

/-- C8 amended: both generators return exactly `n` entries for every color
string and every `n` (in particular the empty sequence for `n = 0`); at
`count = 0` the shade redistribution comparison `0 × 10 > L₀` is false for
every input (`L₀ ≥ 0`), and the tint comparison `0 × 10 > 100 − L₀` is false
whenever `L₀ ≤ 100` (in particular for every 8-bit color), though not for
parsed colors whose channels exceed 255. -/
theorem count_invariant_amended :
    ∀ (c : String) (n : ℕ),
      (calculateShades c n).length = n ∧
      (calculateTints c n).length = n ∧
      calculateShades c 0 = [] ∧
      calculateTints c 0 = [] ∧
      ¬ ((0 : ℚ) * 10 > (baseHSLA c).2.2.1) ∧
      ((baseHSLA c).2.2.1 ≤ 100 → ¬ ((0 : ℚ) * 10 > 100 - (baseHSLA c).2.2.1)) := by
  intro c n
  refine ⟨calculateShades_length c n, calculateTints_length c n,
    List.length_eq_zero.mp (calculateShades_length c 0),
    List.length_eq_zero.mp (calculateTints_length c 0), ?_, ?_⟩
  · have h := baseHSLA_l_nonneg c
    intro hcon
    rw [zero_mul] at hcon
    linarith
  · intro h100 hcon
    rw [zero_mul] at hcon
    linarith

/-- Witness for the amended C8 at the concrete color `"white"`. -/
theorem count_invariant_amended_witness :
    ¬ ((0 : ℚ) * 10 > 100 - (baseHSLA "white").2.2.1) :=
  (count_invariant_amended "white" 3).2.2.2.2.2 (by decide)

/-- The first entry of the returned shade-lightness sequence comes from the
last loop iteration (`i = n-1`, lightness `max 0 (L₀ - n·step)`) and the last
entry from the first iteration (`i = 0`, lightness `max 0 (L₀ - step)`),
because the computed list is reversed. -/
theorem calculateShadesL_head_getLast (c : String) (n : ℕ) (hn : 1 ≤ n) :
    (calculateShadesL c n).head? =
      some (max 0 ((baseHSLA c).2.2.1 -
        (n : ℚ) * shadeStep (baseHSLA c).2.2.1 n)) ∧
    (calculateShadesL c n).getLast? =
      some (max 0 ((baseHSLA c).2.2.1 - shadeStep (baseHSLA c).2.2.1 n)) := by
  obtain ⟨m, rfl⟩ : ∃ m, n = m + 1 := ⟨n - 1, (Nat.succ_pred_eq_of_pos hn).symm⟩
  have hdef : calculateShadesL c (m + 1) =
      ((List.range (m + 1)).map fun i : ℕ =>
        max 0 ((baseHSLA c).2.2.1 -
          ((i : ℚ) + 1) * shadeStep (baseHSLA c).2.2.1 (m + 1))).reverse := rfl
  constructor
  · rw [hdef, List.head?_reverse, List.range_succ, List.map_append]
    simp only [List.map_cons, List.map_nil]
    rw [List.getLast?_concat]
    push_cast
    ring_nf
  · rw [hdef, List.getLast?_reverse, List.range_succ_eq_map]
    simp only [List.map_cons, List.head?_cons]
    norm_num

/-- Bounds for the raw hue sector value computed by `rgbToHsl` before the
division by six: it always lies in `[0, 6)`. -/
theorem hue_aux_bounds (r g b M mn : ℚ) (hrM : r ≤ M) (hgM : g ≤ M)
    (hbM : b ≤ M) (hrm : mn ≤ r) (hgm : mn ≤ g) (hbm : mn ≤ b)
    (hd : mn < M) :
    0 ≤ (if M = r then (g - b) / (M - mn) + (if g < b then 6 else 0)
         else if M = g then (b - r) / (M - mn) + 2
         else if M = b then (r - g) / (M - mn) + 4
         else 0) ∧
    (if M = r then (g - b) / (M - mn) + (if g < b then 6 else 0)
     else if M = g then (b - r) / (M - mn) + 2
     else if M = b then (r - g) / (M - mn) + 4
     else 0) < 6 := by
  have hdpos : (0 : ℚ) < M - mn := by linarith
  split_ifs with h1 h2 h3 h4
  · have h5 : (-1 : ℚ) ≤ (g - b) / (M - mn) := by
      rw [le_div_iff₀ hdpos]
      linarith
    have h6 : (g - b) / (M - mn) < 0 := div_neg_of_neg_of_pos (by linarith) hdpos
    constructor <;> linarith
  · have h5 : (0 : ℚ) ≤ (g - b) / (M - mn) := div_nonneg (by linarith) hdpos.le
    have h6 : (g - b) / (M - mn) ≤ 1 := by
      rw [div_le_one hdpos]
      linarith
    constructor <;> linarith
  · have h5 : (-1 : ℚ) ≤ (b - r) / (M - mn) := by
      rw [le_div_iff₀ hdpos]
      linarith
    have h6 : (b - r) / (M - mn) ≤ 1 := by
      rw [div_le_one hdpos]
      linarith
    constructor <;> linarith
  · have h5 : (-1 : ℚ) ≤ (r - g) / (M - mn) := by
      rw [le_div_iff₀ hdpos]
      linarith
    have h6 : (r - g) / (M - mn) ≤ 1 := by
      rw [div_le_one hdpos]
      linarith
    constructor <;> linarith
  · norm_num

/-- Bounds for the saturation computed by `rgbToHsl` (before the scaling by
100): it always lies in `[0, 1]`. -/
theorem sat_aux_bounds (M mn : ℚ) (h0 : 0 ≤ mn) (hmM : mn ≤ M) (hM1 : M ≤ 1) :
    0 ≤ (if M - mn = 0 then 0
         else if (M + mn) / 2 > 1 / 2 then (M - mn) / (2 - M - mn)
         else (M - mn) / (M + mn)) ∧
    (if M - mn = 0 then 0
     else if (M + mn) / 2 > 1 / 2 then (M - mn) / (2 - M - mn)
     else (M - mn) / (M + mn)) ≤ 1 := by
  split_ifs with h1 h2
  · norm_num
  · have hlt : mn < M := lt_of_le_of_ne hmM fun he => h1 (by rw [he]; ring)
    have hden : (0 : ℚ) < 2 - M - mn := by linarith
    refine ⟨div_nonneg (by linarith) hden.le, ?_⟩
    rw [div_le_one hden]
    linarith
  · have hlt : mn < M := lt_of_le_of_ne hmM fun he => h1 (by rw [he]; ring)
    have hden : (0 : ℚ) < M + mn := by linarith
    refine ⟨div_nonneg (by linarith) hden.le, ?_⟩
    rw [div_le_one hden]
    linarith

/-- On nonnegative arguments `truncQ` is the floor. -/
theorem truncQ_floor (q : ℚ) (h : 0 ≤ q) : truncQ q = ⌊q⌋ := by
  unfold truncQ
  rw [if_neg (not_lt.mpr h)]

/-- `x % 2` is `x` itself on `[0, 2)`. -/
theorem jsMod_two_lo (x : ℚ) (h0 : 0 ≤ x) (h2 : x < 2) : jsMod x 2 = x := by
  unfold jsMod
  rw [truncQ_floor _ (by positivity)]
  rw [show ⌊x / 2⌋ = 0 by
    rw [Int.floor_eq_zero_iff, Set.mem_Ico]
    exact ⟨by positivity, by linarith⟩]
  push_cast
  ring

/-- `x % 2` is `x - 2` on `[2, 4)`. -/
theorem jsMod_two_mid (x : ℚ) (h0 : 2 ≤ x) (h2 : x < 4) : jsMod x 2 = x - 2 := by
  unfold jsMod
  rw [truncQ_floor _ (by positivity)]
  rw [show ⌊x / 2⌋ = 1 by
    rw [Int.floor_eq_iff]
    constructor
    · push_cast
      linarith
    · push_cast
      linarith]
  push_cast
  ring

/-- `x % 2` is `x - 4` on `[4, 6)`. -/
theorem jsMod_two_hi (x : ℚ) (h0 : 4 ≤ x) (h2 : x < 6) : jsMod x 2 = x - 4 := by
  unfold jsMod
  rw [truncQ_floor _ (by positivity)]
  rw [show ⌊x / 2⌋ = 2 by
    rw [Int.floor_eq_iff]
    constructor
    · push_cast
      linarith
    · push_cast
      linarith]
  push_cast
  ring

/-- The chroma `hslToRgb` reconstructs equals the delta `rgbToHsl` computed:
`(1 - |2l - 1|) · s = max - min` for the saturation and lightness the
converter produced. -/
theorem chroma_eq (M mn : ℚ) (h0 : 0 ≤ mn) (hmM : mn ≤ M) (hM1 : M ≤ 1) :
    (1 - |2 * ((M + mn) / 2) - 1|) *
      (if M - mn = 0 then 0
       else if (M + mn) / 2 > 1 / 2 then (M - mn) / (2 - M - mn)
       else (M - mn) / (M + mn)) = M - mn := by
  by_cases hd : M - mn = 0
  · rw [if_pos hd, mul_zero, hd]
  · rw [if_neg hd]
    have hlt : mn < M := lt_of_le_of_ne hmM fun he => hd (by rw [he]; ring)
    by_cases hhalf : (M + mn) / 2 > 1 / 2
    · rw [if_pos hhalf]
      rw [show |2 * ((M + mn) / 2) - 1| = M + mn - 1 by
        rw [abs_of_nonneg (by linarith)]
        ring]
      have hden : (0 : ℚ) < 2 - M - mn := by linarith
      field_simp
      ring
    · rw [if_neg hhalf]
      push_neg at hhalf
      rw [show |2 * ((M + mn) / 2) - 1| = 1 - (M + mn) by
        rw [abs_of_nonpos (by linarith)]
        ring]
      have hden : (0 : ℚ) < M + mn := by linarith
      field_simp

set_option maxHeartbeats 1000000 in
/-- The HSL→RGB sector reconstruction is exactly inverse to the RGB→HSL
conversion on normalized channels: feeding the hue, saturation and lightness
produced by `rgbToHsl` into the sector computation of `hslToRgb` returns the
original channels divided by 255, with no rounding error. -/
theorem hslChan_rgbToHsl (R G B a : ℚ)
    (hR0 : 0 ≤ R) (hR1 : R ≤ 255) (hG0 : 0 ≤ G) (hG1 : G ≤ 255)
    (hB0 : 0 ≤ B) (hB1 : B ≤ 255) :
    hslChan (rgbToHsl R G B a).1 (rgbToHsl R G B a).2.1
      (rgbToHsl R G B a).2.2.1 = (R / 255, G / 255, B / 255) := by
  have hr0 : (0 : ℚ) ≤ R / 255 := by positivity
  have hg0 : (0 : ℚ) ≤ G / 255 := by positivity
  have hb0 : (0 : ℚ) ≤ B / 255 := by positivity
  have hr1 : R / 255 ≤ 1 := by
    rw [div_le_one (by norm_num : (0 : ℚ) < 255)]
    exact hR1
  have hg1 : G / 255 ≤ 1 := by
    rw [div_le_one (by norm_num : (0 : ℚ) < 255)]
    exact hG1
  have hb1 : B / 255 ≤ 1 := by
    rw [div_le_one (by norm_num : (0 : ℚ) < 255)]
    exact hB1
  simp only [rgbToHsl, hslChan]
  set r := R / 255 with hrdef
  set g := G / 255 with hgdef
  set b := B / 255 with hbdef
  set M := max r (max g b) with hMdef
  set mn := min r (min g b) with hmndef
  have hrM : r ≤ M := le_max_left _ _
  have hgM : g ≤ M := le_trans (le_max_left _ _) (le_max_right _ _)
  have hbM : b ≤ M := le_trans (le_max_right _ _) (le_max_right _ _)
  have hrm : mn ≤ r := min_le_left _ _
  have hgm : mn ≤ g := le_trans (min_le_right _ _) (min_le_left _ _)
  have hbm : mn ≤ b := le_trans (min_le_right _ _) (min_le_right _ _)
  have hm0 : 0 ≤ mn := le_min hr0 (le_min hg0 hb0)
  have hM1 : M ≤ 1 := max_le hr1 (max_le hg1 hb1)
  have hmM : mn ≤ M := le_trans hrm hrM
  set hbr := (if M = r then (g - b) / (M - mn) + (if g < b then 6 else 0)
    else if M = g then (b - r) / (M - mn) + 2
    else if M = b then (r - g) / (M - mn) + 4
    else 0) with hbrdef
  set S0 := (if M - mn = 0 then 0
    else if (M + mn) / 2 > 1 / 2 then (M - mn) / (2 - M - mn)
    else (M - mn) / (M + mn)) with hS0def
  rw [show (M + mn) / 2 * 100 / 100 = (M + mn) / 2 from by ring,
    show S0 * 100 / 100 = S0 from by ring]
  have hc : (1 - |2 * ((M + mn) / 2) - 1|) * S0 = M - mn := by
    rw [hS0def]
    exact chroma_eq M mn hm0 hmM hM1
  rw [hc, show (M + mn) / 2 - (M - mn) / 2 = mn from by ring]
  by_cases hdelta : M - mn = 0
  · have hMmn : M = mn := sub_eq_zero.mp hdelta
    rw [if_pos hdelta, if_pos (by norm_num : (0 : ℚ) * 360 < 60), hdelta]
    have hr' : r = mn := le_antisymm (hMmn ▸ hrM) hrm
    have hg' : g = mn := le_antisymm (hMmn ▸ hgM) hgm
    have hb' : b = mn := le_antisymm (hMmn ▸ hbM) hbm
    dsimp only
    simp only [Prod.mk.injEq]
    refine ⟨by rw [hr']; ring, by rw [hg']; ring, by rw [hb']; ring⟩
  · rw [if_neg hdelta]
    have hlt : mn < M := lt_of_le_of_ne hmM fun he => hdelta (by rw [he]; ring)
    have hdpos : (0 : ℚ) < M - mn := by linarith
    rw [show hbr / 6 * 360 / 60 = hbr from by ring]
    by_cases hMr : M = r
    · rw [hbrdef, if_pos hMr]
      by_cases hgb : g < b
      · -- hue sector [300, 360)
        rw [if_pos hgb]
        have ht1 : (-1 : ℚ) ≤ (g - b) / (M - mn) := by
          rw [le_div_iff₀ hdpos]
          linarith
        have ht2 : (g - b) / (M - mn) < 0 :=
          div_neg_of_neg_of_pos (by linarith) hdpos
        have hmn : mn = g := by
          have h1 : min g b = g := min_eq_left hgb.le
          have h2 : min r g = g := min_eq_right (hMr ▸ hgM)
          rw [hmndef, h1, h2]
        rw [if_neg (by linarith :
            ¬(((g - b) / (M - mn) + 6) / 6 * 360 < 60)),
          if_neg (by linarith :
            ¬(((g - b) / (M - mn) + 6) / 6 * 360 < 120)),
          if_neg (by linarith :
            ¬(((g - b) / (M - mn) + 6) / 6 * 360 < 180)),
          if_neg (by linarith :
            ¬(((g - b) / (M - mn) + 6) / 6 * 360 < 240)),
          if_neg (by linarith :
            ¬(((g - b) / (M - mn) + 6) / 6 * 360 < 300))]
        rw [jsMod_two_hi _ (by linarith) (by linarith)]
        rw [show (g - b) / (M - mn) + 6 - 4 - 1 = (g - b) / (M - mn) + 1
          from by ring]
        rw [abs_of_nonneg (by linarith : (0 : ℚ) ≤ (g - b) / (M - mn) + 1)]
        rw [show (M - mn) * (1 - ((g - b) / (M - mn) + 1)) = b - g from by
          field_simp]
        dsimp only
        simp only [Prod.mk.injEq]
        refine ⟨by rw [← hMr]; ring, by rw [hmn]; ring, by rw [hmn]; ring⟩
      · rw [if_neg hgb]
        push_neg at hgb
        have ht1 : (0 : ℚ) ≤ (g - b) / (M - mn) :=
          div_nonneg (by linarith) hdpos.le
        have ht2 : (g - b) / (M - mn) ≤ 1 := by
          rw [div_le_one hdpos]
          linarith
        have hmn : mn = b := by
          have h1 : min g b = b := min_eq_right hgb
          have h2 : min r b = b := min_eq_right (hMr ▸ hbM)
          rw [hmndef, h1, h2]
        by_cases hgr : (g - b) / (M - mn) < 1
        · -- hue sector [0, 60)
          rw [if_pos (by linarith : ((g - b) / (M - mn) + 0) / 6 * 360 < 60)]
          rw [jsMod_two_lo _ (by linarith) (by linarith)]
          rw [show (g - b) / (M - mn) + 0 - 1 = (g - b) / (M - mn) - 1
            from by ring]
          rw [abs_of_nonpos (by linarith : (g - b) / (M - mn) - 1 ≤ 0)]
          rw [show (M - mn) * (1 - -((g - b) / (M - mn) - 1)) = g - b from by
            field_simp]
          dsimp only
          simp only [Prod.mk.injEq]
          refine ⟨by rw [← hMr]; ring, by rw [hmn]; ring, by rw [hmn]; ring⟩
        · -- boundary hue 60, sector [60, 120)
          push_neg at hgr
          have hteq : (g - b) / (M - mn) = 1 := le_antisymm ht2 hgr
          have hgeq : g = M := by
            have h2 := (div_eq_iff hdelta).mp hteq
            have h3 : mn = b := hmn
            linarith
          rw [hteq]
          rw [if_neg (by norm_num : ¬(((1 : ℚ) + 0) / 6 * 360 < 60)),
            if_pos (by norm_num : ((1 : ℚ) + 0) / 6 * 360 < 120)]
          rw [jsMod_two_lo _ (by norm_num) (by norm_num)]
          rw [show (1 : ℚ) + 0 - 1 = 0 from by norm_num, abs_zero]
          dsimp only
          simp only [Prod.mk.injEq]
          refine ⟨by rw [← hMr]; ring, by rw [hgeq]; ring, by rw [hmn]; ring⟩
    · by_cases hMg : M = g
      · rw [hbrdef, if_neg hMr, if_pos hMg]
        have hrM' : r < M := lt_of_le_of_ne hrM fun he => hMr he.symm
        by_cases hbr' : b < r
        · -- hue sector (60, 120)
          have hmn : mn = b := by
            have h1 : min g b = b := min_eq_right (show b ≤ g from hMg ▸ hbM)
            have h2 : min r b = b := min_eq_right hbr'.le
            rw [hmndef, h1, h2]
          have ht1 : (-1 : ℚ) < (b - r) / (M - mn) := by
            rw [lt_div_iff₀ hdpos]
            linarith
          have ht2 : (b - r) / (M - mn) < 0 :=
            div_neg_of_neg_of_pos (by linarith) hdpos
          rw [if_neg (by linarith :
              ¬(((b - r) / (M - mn) + 2) / 6 * 360 < 60)),
            if_pos (by linarith : ((b - r) / (M - mn) + 2) / 6 * 360 < 120)]
          rw [jsMod_two_lo _ (by linarith) (by linarith)]
          rw [show (b - r) / (M - mn) + 2 - 1 = (b - r) / (M - mn) + 1
            from by ring]
          rw [abs_of_nonneg (by linarith : (0 : ℚ) ≤ (b - r) / (M - mn) + 1)]
          rw [show (M - mn) * (1 - ((b - r) / (M - mn) + 1)) = r - b from by
            field_simp]
          dsimp only
          simp only [Prod.mk.injEq]
          refine ⟨by rw [hmn]; ring, by rw [← hMg]; ring, by rw [hmn]; ring⟩
        · push_neg at hbr'
          have hmn : mn = r := by
            have hrg2 : r ≤ g := le_of_lt (hMg ▸ hrM')
            have h1 : min r (min g b) = r := min_eq_left (le_min hrg2 hbr')
            rw [hmndef, h1]
          have ht1 : (0 : ℚ) ≤ (b - r) / (M - mn) :=
            div_nonneg (by linarith) hdpos.le
          have ht2 : (b - r) / (M - mn) ≤ 1 := by
            rw [div_le_one hdpos]
            linarith
          by_cases hbg : (b - r) / (M - mn) < 1
          · -- hue sector [120, 180)
            rw [if_neg (by linarith :
                ¬(((b - r) / (M - mn) + 2) / 6 * 360 < 60)),
              if_neg (by linarith :
                ¬(((b - r) / (M - mn) + 2) / 6 * 360 < 120)),
              if_pos (by linarith :
                ((b - r) / (M - mn) + 2) / 6 * 360 < 180)]
            rw [jsMod_two_mid _ (by linarith) (by linarith)]
            rw [show (b - r) / (M - mn) + 2 - 2 - 1 = (b - r) / (M - mn) - 1
              from by ring]
            rw [abs_of_nonpos (by linarith : (b - r) / (M - mn) - 1 ≤ 0)]
            rw [show (M - mn) * (1 - -((b - r) / (M - mn) - 1)) = b - r
              from by
              field_simp]
            dsimp only
            simp only [Prod.mk.injEq]
            refine ⟨by rw [hmn]; ring, by rw [← hMg]; ring,
              by rw [hmn]; ring⟩
          · -- boundary hue 180, sector [180, 240)
            push_neg at hbg
            have hteq : (b - r) / (M - mn) = 1 := le_antisymm ht2 hbg
            have hbeq : b = M := by
              have h2 := (div_eq_iff hdelta).mp hteq
              linarith [hmn]
            rw [hteq]
            rw [if_neg (by norm_num : ¬(((1 : ℚ) + 2) / 6 * 360 < 60)),
              if_neg (by norm_num : ¬(((1 : ℚ) + 2) / 6 * 360 < 120)),
              if_neg (by norm_num : ¬(((1 : ℚ) + 2) / 6 * 360 < 180)),
              if_pos (by norm_num : ((1 : ℚ) + 2) / 6 * 360 < 240)]
            rw [jsMod_two_mid _ (by norm_num) (by norm_num)]
            rw [show (1 : ℚ) + 2 - 2 - 1 = 0 from by norm_num, abs_zero]
            dsimp only
            simp only [Prod.mk.injEq]
            refine ⟨by rw [hmn]; ring, by rw [← hMg]; ring,
              by rw [hbeq]; ring⟩
      · have hMb : M = b := by
          rcases max_choice r (max g b) with h | h
          · exact absurd (hMdef.trans h) hMr
          · rcases max_choice g b with h2 | h2
            · exact absurd (hMdef.trans (h.trans h2)) hMg
            · exact hMdef.trans (h.trans h2)
        rw [hbrdef, if_neg hMr, if_neg hMg, if_pos hMb]
        have hrM' : r < M := lt_of_le_of_ne hrM fun he => hMr he.symm
        have hgM' : g < M := lt_of_le_of_ne hgM fun he => hMg he.symm
        by_cases hrg : r < g
        · -- hue sector (180, 240)
          have hmn : mn = r := by
            have hrb2 : r ≤ b := le_of_lt (hMb ▸ hrM')
            have h1 : min r (min g b) = r := min_eq_left (le_min hrg.le hrb2)
            rw [hmndef, h1]
          have ht1 : (-1 : ℚ) < (r - g) / (M - mn) := by
            rw [lt_div_iff₀ hdpos]
            linarith
          have ht2 : (r - g) / (M - mn) < 0 :=
            div_neg_of_neg_of_pos (by linarith) hdpos
          rw [if_neg (by linarith :
              ¬(((r - g) / (M - mn) + 4) / 6 * 360 < 60)),
            if_neg (by linarith :
              ¬(((r - g) / (M - mn) + 4) / 6 * 360 < 120)),
            if_neg (by linarith :
              ¬(((r - g) / (M - mn) + 4) / 6 * 360 < 180)),
            if_pos (by linarith : ((r - g) / (M - mn) + 4) / 6 * 360 < 240)]
          rw [jsMod_two_mid _ (by linarith) (by linarith)]
          rw [show (r - g) / (M - mn) + 4 - 2 - 1 = (r - g) / (M - mn) + 1
            from by ring]
          rw [abs_of_nonneg (by linarith : (0 : ℚ) ≤ (r - g) / (M - mn) + 1)]
          rw [show (M - mn) * (1 - ((r - g) / (M - mn) + 1)) = g - r from by
            field_simp]
          dsimp only
          simp only [Prod.mk.injEq]
          refine ⟨by rw [hmn]; ring, by rw [hmn]; ring, by rw [← hMb]; ring⟩
        · -- hue sector [240, 300)
          push_neg at hrg
          have hmn : mn = g := by
            have hgb2 : g ≤ b := le_of_lt (hMb ▸ hgM')
            have h1 : min g b = g := min_eq_left hgb2
            have h2 : min r g = g := min_eq_right hrg
            rw [hmndef, h1, h2]
          have ht1 : (0 : ℚ) ≤ (r - g) / (M - mn) :=
            div_nonneg (by linarith) hdpos.le
          have ht2 : (r - g) / (M - mn) < 1 := by
            rw [div_lt_one hdpos]
            linarith
          rw [if_neg (by linarith :
              ¬(((r - g) / (M - mn) + 4) / 6 * 360 < 60)),
            if_neg (by linarith :
              ¬(((r - g) / (M - mn) + 4) / 6 * 360 < 120)),
            if_neg (by linarith :
              ¬(((r - g) / (M - mn) + 4) / 6 * 360 < 180)),
            if_neg (by linarith :
              ¬(((r - g) / (M - mn) + 4) / 6 * 360 < 240)),
            if_pos (by linarith : ((r - g) / (M - mn) + 4) / 6 * 360 < 300)]
          rw [jsMod_two_hi _ (by linarith) (by linarith)]
          rw [show (r - g) / (M - mn) + 4 - 4 - 1 = (r - g) / (M - mn) - 1
            from by ring]
          rw [abs_of_nonpos (by linarith : (r - g) / (M - mn) - 1 ≤ 0)]
          rw [show (M - mn) * (1 - -((r - g) / (M - mn) - 1)) = r - g
            from by
            field_simp]
          dsimp only
          simp only [Prod.mk.injEq]
          refine ⟨by rw [hmn]; ring, by rw [hmn]; ring, by rw [← hMb]; ring⟩

/-- Rounding an exact integer-over-255 channel back to `[0, 255]` recovers
that integer. -/
theorem jsRound_channel (n : ℕ) : jsRound ((n : ℚ) / 255 * 255) = (n : ℤ) := by
  rw [div_mul_cancel₀ _ (by norm_num : (255 : ℚ) ≠ 0)]
  unfold jsRound
  rw [show ((n : ℚ) + 1 / 2) = ((n : ℤ) : ℚ) + 1 / 2 by push_cast; ring,
    Int.floor_int_add, show ⌊(1 / 2 : ℚ)⌋ = 0 from by decide, add_zero]

/-- C2: converting any 8-bit RGB with alpha to HSL and back reproduces the
original integer channels exactly after `Math.round` and the alpha exactly:
the output of `hslToRgb ∘ rgbToHsl` is literally the canonical rendering
`rgba(R, G, B, A)` of the input. -/
theorem rgb_hsl_roundtrip (R G B : ℕ) (hR : R ≤ 255) (hG : G ≤ 255)
    (hB : B ≤ 255) (a : ℚ) (ha0 : 0 ≤ a) (ha1 : a ≤ 1) :
    jsRound ((hslChan (rgbToHsl R G B a).1 (rgbToHsl R G B a).2.1
        (rgbToHsl R G B a).2.2.1).1 * 255) = (R : ℤ) ∧
    jsRound ((hslChan (rgbToHsl R G B a).1 (rgbToHsl R G B a).2.1
        (rgbToHsl R G B a).2.2.1).2.1 * 255) = (G : ℤ) ∧
    jsRound ((hslChan (rgbToHsl R G B a).1 (rgbToHsl R G B a).2.1
        (rgbToHsl R G B a).2.2.1).2.2 * 255) = (B : ℤ) ∧
    hslToRgb (rgbToHsl R G B a).1 (rgbToHsl R G B a).2.1
      (rgbToHsl R G B a).2.2.1 (rgbToHsl R G B a).2.2.2 =
      formatRGBA R G B a := by
  have hchan := hslChan_rgbToHsl R G B a (by positivity)
    (by exact_mod_cast hR) (by positivity) (by exact_mod_cast hG)
    (by positivity) (by exact_mod_cast hB)
  refine ⟨?_, ?_, ?_, ?_⟩
  · rw [hchan]
    exact jsRound_channel R
  · rw [hchan]
    exact jsRound_channel G
  · rw [hchan]
    exact jsRound_channel B
  · unfold hslToRgb formatRGBA
    rw [hchan]
    dsimp only
    rw [jsRound_channel R, jsRound_channel G, jsRound_channel B,
      show (rgbToHsl (R : ℚ) (G : ℚ) (B : ℚ) a).2.2.2 = a from rfl]

/-- Witness for C2 at the concrete input `(17, 200, 3)` with alpha 1/2. -/
theorem rgb_hsl_roundtrip_witness :
    hslToRgb (rgbToHsl 17 200 3 (1/2)).1 (rgbToHsl 17 200 3 (1/2)).2.1
      (rgbToHsl 17 200 3 (1/2)).2.2.1 (rgbToHsl 17 200 3 (1/2)).2.2.2 =
      formatRGBA 17 200 3 (1/2) :=
  (rgb_hsl_roundtrip 17 200 3 (by norm_num) (by norm_num) (by norm_num)
    (1/2) (by norm_num) (by norm_num)).2.2.2

/-- C10: for every integer `R, G, B ≤ 255` and alpha in `[0, 1]`, `rgbToHsl`
returns a hue in `[0, 360)` (exactly 0, together with saturation 0, in the
achromatic case), saturation and lightness in `[0, 100]`, and the alpha
unchanged. -/
theorem rgbToHsl_ranges (R G B : ℕ) (hR : R ≤ 255) (hG : G ≤ 255)
    (hB : B ≤ 255) (a : ℚ) (ha0 : 0 ≤ a) (ha1 : a ≤ 1) :
    0 ≤ (rgbToHsl R G B a).1 ∧ (rgbToHsl R G B a).1 < 360 ∧
    0 ≤ (rgbToHsl R G B a).2.1 ∧ (rgbToHsl R G B a).2.1 ≤ 100 ∧
    0 ≤ (rgbToHsl R G B a).2.2.1 ∧ (rgbToHsl R G B a).2.2.1 ≤ 100 ∧
    (rgbToHsl R G B a).2.2.2 = a ∧
    (R = G → G = B →
      (rgbToHsl R G B a).1 = 0 ∧ (rgbToHsl R G B a).2.1 = 0) := by
  have hr0 : (0 : ℚ) ≤ (R : ℚ) / 255 := by positivity
  have hg0 : (0 : ℚ) ≤ (G : ℚ) / 255 := by positivity
  have hb0 : (0 : ℚ) ≤ (B : ℚ) / 255 := by positivity
  have hr1 : (R : ℚ) / 255 ≤ 1 := by
    rw [div_le_one (by norm_num : (0 : ℚ) < 255)]
    exact_mod_cast hR
  have hg1 : (G : ℚ) / 255 ≤ 1 := by
    rw [div_le_one (by norm_num : (0 : ℚ) < 255)]
    exact_mod_cast hG
  have hb1 : (B : ℚ) / 255 ≤ 1 := by
    rw [div_le_one (by norm_num : (0 : ℚ) < 255)]
    exact_mod_cast hB
  simp only [rgbToHsl]
  set r := (R : ℚ) / 255 with hrdef
  set g := (G : ℚ) / 255 with hgdef
  set b := (B : ℚ) / 255 with hbdef
  set M := max r (max g b) with hMdef
  set mn := min r (min g b) with hmndef
  have hrM : r ≤ M := le_max_left _ _
  have hgM : g ≤ M := le_trans (le_max_left _ _) (le_max_right _ _)
  have hbM : b ≤ M := le_trans (le_max_right _ _) (le_max_right _ _)
  have hrm : mn ≤ r := min_le_left _ _
  have hgm : mn ≤ g := le_trans (min_le_right _ _) (min_le_left _ _)
  have hbm : mn ≤ b := le_trans (min_le_right _ _) (min_le_right _ _)
  have hm0 : 0 ≤ mn := le_min hr0 (le_min hg0 hb0)
  have hM1 : M ≤ 1 := max_le hr1 (max_le hg1 hb1)
  have hmM : mn ≤ M := le_trans hrm hrM
  obtain ⟨hs0, hs1⟩ := sat_aux_bounds M mn hm0 hmM hM1
  refine ⟨?_, ?_, by linarith, by linarith, by linarith, by linarith,
    trivial, ?_⟩
  · by_cases hd : M - mn = 0
    · rw [if_pos hd]
      norm_num
    · rw [if_neg hd]
      have hlt : mn < M := lt_of_le_of_ne hmM fun he => hd (by rw [he]; ring)
      obtain ⟨hh0, _⟩ := hue_aux_bounds r g b M mn hrM hgM hbM hrm hgm hbm hlt
      linarith
  · by_cases hd : M - mn = 0
    · rw [if_pos hd]
      norm_num
    · rw [if_neg hd]
      have hlt : mn < M := lt_of_le_of_ne hmM fun he => hd (by rw [he]; ring)
      obtain ⟨_, hh6⟩ := hue_aux_bounds r g b M mn hrM hgM hbM hrm hgm hbm hlt
      linarith
  · intro hRG hGB
    have hrg : r = g := by rw [hrdef, hgdef, hRG]
    have hgb : g = b := by rw [hgdef, hbdef, hGB]
    have hMr : M = r := by rw [hMdef, ← hgb, max_self, ← hrg, max_self]
    have hmr : mn = r := by rw [hmndef, ← hgb, min_self, ← hrg, min_self]
    have hd : M - mn = 0 := by rw [hMr, hmr]; ring
    rw [if_pos hd, if_pos hd]
    norm_num

/-- Witness for C10 at the concrete input `(200, 17, 68)` with alpha 1/2. -/
theorem rgbToHsl_ranges_witness :
    0 ≤ (rgbToHsl 200 17 68 (1/2)).1 ∧ (rgbToHsl 200 17 68 (1/2)).1 < 360 ∧
    0 ≤ (rgbToHsl 200 17 68 (1/2)).2.1 ∧
    (rgbToHsl 200 17 68 (1/2)).2.1 ≤ 100 ∧
    0 ≤ (rgbToHsl 200 17 68 (1/2)).2.2.1 ∧
    (rgbToHsl 200 17 68 (1/2)).2.2.1 ≤ 100 ∧
    (rgbToHsl 200 17 68 (1/2)).2.2.2 = 1/2 ∧
    ((200 : ℕ) = 17 → (17 : ℕ) = 68 →
      (rgbToHsl 200 17 68 (1/2)).1 = 0 ∧ (rgbToHsl 200 17 68 (1/2)).2.1 = 0) :=
  rgbToHsl_ranges 200 17 68 (by norm_num) (by norm_num) (by norm_num)
    (1/2) (by norm_num) (by norm_num)

/-- C1 counterexample: for the parseable color `"rgba(255, 0, 0, 1)"`
(base lightness 50 > 0) and count 2, the returned shade lightnesses are
`[30, 40]`: the FIRST returned entry is at distance 20 from the base
lightness and the LAST at distance 10, so the first is not closer. -/
theorem shades_order_counterexample :
    (baseHSLA "rgba(255, 0, 0, 1)").2.2.1 = 50 ∧
    calculateShadesL "rgba(255, 0, 0, 1)" 2 = [30, 40] ∧
    calculateShades "rgba(255, 0, 0, 1)" 2 =
      ["rgba(153, 0, 0, 1)", "rgba(204, 0, 0, 1)"] ∧
    ¬ (|(30 : ℚ) - 50| < |(40 : ℚ) - 50|) := by
  refine ⟨by decide, by decide, by decide, by decide⟩

/-- C1 amended: for every parseable color with base lightness `L₀ > 0` and
every count `n ≥ 2`, the shades are produced lightest-of-the-shades-first
internally and the final sequence is reversed, so the FIRST returned entry
(lightness `max 0 (L₀ - n·step)`) is strictly FARTHER from `L₀` than the
last returned entry (lightness `max 0 (L₀ - step)`); the returned order is
darkest-first → lightest-of-the-shades-last. -/
theorem shades_order_amended (c : String) (n : ℕ) (hn : 2 ≤ n)
    (hl : 0 < (baseHSLA c).2.2.1) :
    (calculateShadesL c n).head? =
      some (max 0 ((baseHSLA c).2.2.1 -
        (n : ℚ) * shadeStep (baseHSLA c).2.2.1 n)) ∧
    (calculateShadesL c n).getLast? =
      some (max 0 ((baseHSLA c).2.2.1 - shadeStep (baseHSLA c).2.2.1 n)) ∧
    calculateShades c n = (calculateShadesL c n).map
      (fun L => hslToRgb (baseHSLA c).1 (baseHSLA c).2.1 L
        (baseHSLA c).2.2.2) ∧
    |max 0 ((baseHSLA c).2.2.1 - shadeStep (baseHSLA c).2.2.1 n) -
        (baseHSLA c).2.2.1| <
      |max 0 ((baseHSLA c).2.2.1 - (n : ℚ) * shadeStep (baseHSLA c).2.2.1 n) -
        (baseHSLA c).2.2.1| := by
  obtain ⟨hhead, hlast⟩ := calculateShadesL_head_getLast c n (by omega)
  refine ⟨hhead, hlast, ?_, ?_⟩
  · rw [show calculateShades c n =
        ((List.range n).map fun i : ℕ =>
          hslToRgb (baseHSLA c).1 (baseHSLA c).2.1
            (max 0 ((baseHSLA c).2.2.1 -
              ((i : ℚ) + 1) * shadeStep (baseHSLA c).2.2.1 n))
            (baseHSLA c).2.2.2).reverse from rfl,
      show calculateShadesL c n =
        ((List.range n).map fun i : ℕ =>
          max 0 ((baseHSLA c).2.2.1 -
            ((i : ℚ) + 1) * shadeStep (baseHSLA c).2.2.1 n)).reverse from rfl,
      List.map_reverse, List.map_map]
    rfl
  · set l := (baseHSLA c).2.2.1 with hldef
    set st := shadeStep l n with hstdef
    have hn2 : (2 : ℚ) ≤ (n : ℚ) := by exact_mod_cast hn
    have hst : 0 < st ∧ 0 < l - st ∧ st < l := by
      rw [hstdef]
      unfold shadeStep
      rw [if_neg (ne_of_gt hl)]
      split
      · rename_i hcond
        have h1 : l / n < l := div_lt_self hl (by linarith)
        have h2 : 0 < l / n := by positivity
        have h3 : l / n ≤ l / 2 := by
          apply div_le_div_of_nonneg_left (le_of_lt hl) (by norm_num) hn2
        refine ⟨h2, by linarith, h1⟩
      · rename_i hcond
        push_neg at hcond
        refine ⟨by norm_num, by linarith, by linarith⟩
    obtain ⟨hst0, hlst, hstl⟩ := hst
    rw [max_eq_right (le_of_lt hlst)]
    rw [show l - st - l = -st by ring, abs_neg, abs_of_pos hst0]
    rcases le_or_lt (l - (n : ℚ) * st) 0 with hc | hc
    · rw [max_eq_left hc]
      rw [show (0 : ℚ) - l = -l by ring, abs_neg, abs_of_pos hl]
      exact hstl
    · rw [max_eq_right (le_of_lt hc)]
      rw [show l - (n : ℚ) * st - l = -((n : ℚ) * st) by ring, abs_neg,
        abs_of_pos (by nlinarith)]
      nlinarith

/-- Witness for the amended C1 at `"rgba(255, 0, 0, 1)"` with count 2. -/
theorem shades_order_amended_witness :
    (calculateShadesL "rgba(255, 0, 0, 1)" 2).head? =
      some (max 0 ((baseHSLA "rgba(255, 0, 0, 1)").2.2.1 -
        (2 : ℚ) * shadeStep (baseHSLA "rgba(255, 0, 0, 1)").2.2.1 2)) ∧
    (calculateShadesL "rgba(255, 0, 0, 1)" 2).getLast? =
      some (max 0 ((baseHSLA "rgba(255, 0, 0, 1)").2.2.1 -
        shadeStep (baseHSLA "rgba(255, 0, 0, 1)").2.2.1 2)) ∧
    calculateShades "rgba(255, 0, 0, 1)" 2 =
      (calculateShadesL "rgba(255, 0, 0, 1)" 2).map
        (fun L => hslToRgb (baseHSLA "rgba(255, 0, 0, 1)").1
          (baseHSLA "rgba(255, 0, 0, 1)").2.1 L
          (baseHSLA "rgba(255, 0, 0, 1)").2.2.2) ∧
    |max 0 ((baseHSLA "rgba(255, 0, 0, 1)").2.2.1 -
        shadeStep (baseHSLA "rgba(255, 0, 0, 1)").2.2.1 2) -
        (baseHSLA "rgba(255, 0, 0, 1)").2.2.1| <
      |max 0 ((baseHSLA "rgba(255, 0, 0, 1)").2.2.1 -
        (2 : ℚ) * shadeStep (baseHSLA "rgba(255, 0, 0, 1)").2.2.1 2) -
        (baseHSLA "rgba(255, 0, 0, 1)").2.2.1| :=
  shades_order_amended "rgba(255, 0, 0, 1)" 2 (by norm_num) (by decide)

/-! ### Digit-string infrastructure for the format→parse round trip -/

/-- A digit character is not whitespace. -/
theorem digit_not_space (c : Char) (h : isDigitC c = true) :
    isSpaceC c = false := by
  unfold isDigitC at h
  rw [Bool.and_eq_true, decide_eq_true_eq, decide_eq_true_eq] at h
  unfold isSpaceC
  simp only [Bool.or_eq_false_iff, decide_eq_false_iff_not]
  omega

/-- The character of a digit below ten has the expected code point. -/
theorem charOfDigit_toNat (d : ℕ) (h : d < 10) :
    (charOfDigit d).toNat = 48 + d := by
  interval_cases d <;> decide

/-- The character of a digit below ten is a digit character. -/
theorem isDigitC_charOfDigit (d : ℕ) (h : d < 10) :
    isDigitC (charOfDigit d) = true := by
  interval_cases d <;> decide

/-- Folding the `parseInt` accumulator from `a` instead of from zero scales
`a` by a power of ten. -/
theorem digitsVal_from (l : List Char) (a : ℕ) :
    l.foldl (fun a c => 10 * a + (c.toNat - 48)) a =
      a * 10 ^ l.length + l.foldl (fun a c => 10 * a + (c.toNat - 48)) 0 := by
  induction l generalizing a with
  | nil => simp
  | cons c l ih =>
    rw [List.foldl_cons, ih, List.length_cons]
    conv_rhs => rw [List.foldl_cons, ih (10 * 0 + (c.toNat - 48))]
    ring

/-- `parseInt` on a concatenation of digit strings. -/
theorem digitsVal_append (l1 l2 : List Char) :
    digitsVal (l1 ++ l2) = digitsVal l1 * 10 ^ l2.length + digitsVal l2 := by
  unfold digitsVal
  rw [List.foldl_append]
  exact digitsVal_from l2 _

/-- Taking digits from a digit string followed by a non-digit returns the
digit string. -/
theorem takeWhile_digits (ds rest : List Char)
    (h1 : ∀ c ∈ ds, isDigitC c = true)
    (h2 : ∀ c, rest.head? = some c → isDigitC c = false) :
    (ds ++ rest).takeWhile isDigitC = ds := by
  induction ds with
  | nil =>
    cases rest with
    | nil => rfl
    | cons c r => simp [List.takeWhile_cons, h2 c rfl]
  | cons d ds ih =>
    rw [List.cons_append, List.takeWhile_cons,
      h1 d (List.mem_cons_self _ _)]
    rw [ih fun c hc => h1 c (List.mem_cons_of_mem _ hc), if_pos rfl]

/-- Dropping digits from a digit string followed by a non-digit returns the
remainder. -/
theorem dropWhile_digits (ds rest : List Char)
    (h1 : ∀ c ∈ ds, isDigitC c = true)
    (h2 : ∀ c, rest.head? = some c → isDigitC c = false) :
    (ds ++ rest).dropWhile isDigitC = rest := by
  induction ds with
  | nil =>
    cases rest with
    | nil => rfl
    | cons c r => simp [List.dropWhile_cons, h2 c rfl]
  | cons d ds ih =>
    rw [List.cons_append, List.dropWhile_cons,
      h1 d (List.mem_cons_self _ _), if_pos rfl]
    exact ih fun c hc => h1 c (List.mem_cons_of_mem _ hc)

/-- `span` of a digit string followed by a non-digit. -/
theorem span_digits (ds rest : List Char)
    (h1 : ∀ c ∈ ds, isDigitC c = true)
    (h2 : ∀ c, rest.head? = some c → isDigitC c = false) :
    (ds ++ rest).span isDigitC = (ds, rest) := by
  rw [List.span_eq_take_drop, takeWhile_digits ds rest h1 h2,
    dropWhile_digits ds rest h1 h2]

/-- The accumulator of `natCharsAux` is simply appended. -/
theorem natCharsAux_acc (f : ℕ) : ∀ (n : ℕ) (acc : List Char),
    natCharsAux f n acc = natCharsAux f n [] ++ acc := by
  induction f with
  | zero => intro n acc; rfl
  | succ f ih =>
    intro n acc
    by_cases hn : n = 0
    · simp [natCharsAux, hn]
    · simp only [natCharsAux, if_neg hn]
      rw [ih (n / 10) (charOfDigit (n % 10) :: acc),
        ih (n / 10) [charOfDigit (n % 10)]]
      simp [List.append_assoc]

/-- `parseInt` of the rendered digits of `n` (with sufficient fuel) is `n`. -/
theorem natCharsAux_val (f : ℕ) : ∀ n, n < 10 ^ f →
    digitsVal (natCharsAux f n []) = n := by
  induction f with
  | zero =>
    intro n h
    interval_cases n
    rfl
  | succ f ih =>
    intro n h
    by_cases hn : n = 0
    · simp [natCharsAux, hn, digitsVal]
    · simp only [natCharsAux, if_neg hn]
      rw [natCharsAux_acc, digitsVal_append]
      rw [ih (n / 10) (by
        rw [Nat.div_lt_iff_lt_mul (by norm_num : 0 < 10)]
        calc n < 10 ^ (f + 1) := h
        _ = 10 ^ f * 10 := by ring)]
      have hv : digitsVal [charOfDigit (n % 10)] = n % 10 := by
        unfold digitsVal
        rw [List.foldl_cons, List.foldl_nil,
          charOfDigit_toNat _ (Nat.mod_lt _ (by norm_num))]
        omega
      rw [hv]
      simp only [List.length_cons, List.length_nil]
      omega

/-- Every character `natCharsAux` emits is a digit. -/
theorem natCharsAux_digits (f : ℕ) : ∀ n, ∀ c ∈ natCharsAux f n [],
    isDigitC c = true := by
  induction f with
  | zero => intro n c hc; simp [natCharsAux] at hc
  | succ f ih =>
    intro n c hc
    by_cases hn : n = 0
    · simp [natCharsAux, hn] at hc
    · simp only [natCharsAux, if_neg hn] at hc
      rw [natCharsAux_acc] at hc
      rcases List.mem_append.mp hc with h | h
      · exact ih (n / 10) c h
      · rw [List.mem_singleton.mp h]
        exact isDigitC_charOfDigit _ (Nat.mod_lt _ (by norm_num))

/-- `parseInt` inverts the decimal rendering of a natural number. -/
theorem natChars_val (n : ℕ) : digitsVal (natChars n) = n := by
  unfold natChars
  by_cases hn : n = 0
  · rw [if_pos hn, hn]
    decide
  · rw [if_neg hn]
    exact natCharsAux_val n n (Nat.lt_pow_self (by norm_num) n)

/-- Every character of a rendered natural number is a digit. -/
theorem natChars_digits (n : ℕ) : ∀ c ∈ natChars n, isDigitC c = true := by
  unfold natChars
  by_cases hn : n = 0
  · rw [if_pos hn]
    intro c hc
    rw [List.mem_singleton.mp hc]
    decide
  · rw [if_neg hn]
    exact natCharsAux_digits n n

/-- The rendering of a natural number is never empty. -/
theorem natChars_ne_nil (n : ℕ) : natChars n ≠ [] := by
  intro h
  by_cases hn : n = 0
  · rw [natChars, if_pos hn] at h
    simp at h
  · have hv := natChars_val n
    rw [h] at hv
    exact hn (by simpa [digitsVal] using hv.symm)

/-- The accumulator of `padCharsAux` is simply appended. -/
theorem padCharsAux_acc (k : ℕ) : ∀ (n : ℕ) (acc : List Char),
    padCharsAux k n acc = padCharsAux k n [] ++ acc := by
  induction k with
  | zero => intro n acc; rfl
  | succ k ih =>
    intro n acc
    simp only [padCharsAux]
    rw [ih (n / 10) (charOfDigit (n % 10) :: acc),
      ih (n / 10) [charOfDigit (n % 10)]]
    simp [List.append_assoc]

/-- The fixed-width rendering has exactly the requested width. -/
theorem padChars_length (k : ℕ) : ∀ n, (padChars k n).length = k := by
  induction k with
  | zero => intro n; rfl
  | succ k ih =>
    intro n
    unfold padChars
    simp only [padCharsAux]
    rw [padCharsAux_acc]
    simp only [List.length_append, List.length_cons, List.length_nil]
    have := ih (n / 10)
    unfold padChars at this
    omega

/-- `parseInt` inverts the fixed-width rendering when the value fits. -/
theorem padChars_val (k : ℕ) : ∀ n, n < 10 ^ k →
    digitsVal (padChars k n) = n := by
  induction k with
  | zero =>
    intro n h
    interval_cases n
    rfl
  | succ k ih =>
    intro n h
    unfold padChars
    simp only [padCharsAux]
    rw [padCharsAux_acc, digitsVal_append]
    have hrec : digitsVal (padCharsAux k (n / 10) []) = n / 10 := by
      have := ih (n / 10) (by
        rw [Nat.div_lt_iff_lt_mul (by norm_num : 0 < 10)]
        calc n < 10 ^ (k + 1) := h
        _ = 10 ^ k * 10 := by ring)
      unfold padChars at this
      exact this
    rw [hrec]
    have hv : digitsVal [charOfDigit (n % 10)] = n % 10 := by
      unfold digitsVal
      rw [List.foldl_cons, List.foldl_nil,
        charOfDigit_toNat _ (Nat.mod_lt _ (by norm_num))]
      omega
    rw [hv]
    simp only [List.length_cons, List.length_nil]
    omega

/-- Every character of the fixed-width rendering is a digit. -/
theorem padChars_digits (k : ℕ) : ∀ n, ∀ c ∈ padChars k n,
    isDigitC c = true := by
  induction k with
  | zero => intro n c hc; simp [padChars, padCharsAux] at hc
  | succ k ih =>
    intro n c hc
    unfold padChars at hc
    simp only [padCharsAux] at hc
    rw [padCharsAux_acc] at hc
    rcases List.mem_append.mp hc with h | h
    · exact ih (n / 10) c h
    · rw [List.mem_singleton.mp h]
      exact isDigitC_charOfDigit _ (Nat.mod_lt _ (by norm_num))

/-- Any divisor of a power of ten divides the power with exponent equal to
itself. -/
theorem dvd_ten_pow_self : ∀ d K : ℕ, d ∣ 10 ^ K → d ∣ 10 ^ d := by
  intro d
  induction d using Nat.strong_induction_on with
  | _ d ih =>
    intro K hdvd
    rcases Nat.eq_zero_or_pos d with rfl | hdpos
    · exact absurd (Nat.eq_zero_of_zero_dvd hdvd)
        (pow_ne_zero K (by norm_num))
    by_cases h1 : d = 1
    · subst h1
      exact one_dvd _
    obtain ⟨p, hp, hpd⟩ := Nat.exists_prime_and_dvd h1
    have hp10 : p ∣ 10 := hp.dvd_of_dvd_pow (hpd.trans hdvd)
    obtain ⟨d', rfl⟩ := hpd
    have hd'pos : 0 < d' := by
      rcases Nat.eq_zero_or_pos d' with rfl | h
      · simp at hdpos
      · exact h
    have hd'lt : d' < p * d' := (lt_mul_iff_one_lt_left hd'pos).mpr hp.one_lt
    have hd'dvd : d' ∣ 10 ^ K := (dvd_mul_left d' p).trans hdvd
    have ih' := ih d' hd'lt K hd'dvd
    have hstep : p * d' ∣ 10 * 10 ^ d' := mul_dvd_mul hp10 ih'
    refine hstep.trans ?_
    rw [← pow_succ']
    apply pow_dvd_pow
    have h2 : 2 * d' ≤ p * d' := Nat.mul_le_mul_right d' hp.two_le
    omega

/-- If some exponent in the searched window works, `decExpFrom` returns a
valid exponent. -/
theorem decExpFrom_dvd (d : ℕ) (hd : 0 < d) : ∀ (fuel k : ℕ),
    (∃ j, k ≤ j ∧ j < k + fuel ∧ d ∣ 10 ^ j) →
    d ∣ 10 ^ decExpFrom d k fuel := by
  intro fuel
  induction fuel with
  | zero =>
    intro k ⟨j, hj1, hj2, _⟩
    omega
  | succ fuel ih =>
    intro k hex
    simp only [decExpFrom]
    by_cases hk : 10 ^ k % d = 0
    · rw [if_pos hk]
      exact Nat.dvd_of_mod_eq_zero hk
    · rw [if_neg hk]
      apply ih
      obtain ⟨j, hj1, hj2, hj3⟩ := hex
      refine ⟨j, ?_, by omega, hj3⟩
      rcases Nat.eq_or_lt_of_le hj1 with rfl | h
      · exact absurd (Nat.mod_eq_zero_of_dvd hj3) hk
      · omega

/-- When the denominator divides some power of ten, it divides ten to the
`decExp` it selects. -/
theorem decExp_dvd (d : ℕ) (hd : 0 < d) (K : ℕ) (h : d ∣ 10 ^ K) :
    d ∣ 10 ^ decExp d :=
  decExpFrom_dvd d hd (d + 1) 0
    ⟨d, by omega, by omega, dvd_ten_pow_self d K h⟩

/-- `decExpFrom` never returns less than its starting exponent. -/
theorem decExpFrom_ge (d : ℕ) : ∀ fuel k, k ≤ decExpFrom d k fuel := by
  intro fuel
  induction fuel with
  | zero => intro k; simp [decExpFrom]
  | succ fuel ih =>
    intro k
    simp only [decExpFrom]
    by_cases hk : 10 ^ k % d = 0
    · rw [if_pos hk]
    · rw [if_neg hk]
      exact le_trans (by omega) (ih (k + 1))

/-- A `decExp` of zero forces the denominator to be one. -/
theorem decExp_eq_zero (d : ℕ) (h : decExp d = 0) : d = 1 := by
  unfold decExp at h
  simp only [decExpFrom] at h
  by_cases hk : 10 ^ 0 % d = 0
  · exact Nat.dvd_one.mp (by simpa using Nat.dvd_of_mod_eq_zero hk)
  · rw [if_neg hk] at h
    simp only [Nat.zero_add] at h
    have h2 := decExpFrom_ge d d 1
    omega

/-- The numerator cast of a nonnegative rational. -/
theorem toNat_num_cast (q : ℚ) (hq : 0 ≤ q) :
    ((q.num.toNat : ℕ) : ℚ) = (q.num : ℚ) := by
  have h := Int.toNat_of_nonneg (Rat.num_nonneg.mpr hq)
  exact_mod_cast congrArg (fun z : ℤ => (z : ℚ)) h

/-- The scaled integer `renderPosChars` works with is exactly `q · 10^k`. -/
theorem renderScale (q : ℚ) (hq : 0 ≤ q) (K : ℕ) (hfin : q.den ∣ 10 ^ K) :
    ((q.num.toNat * 10 ^ decExp q.den / q.den : ℕ) : ℚ) =
      q * 10 ^ decExp q.den := by
  have hdvd : q.den ∣ 10 ^ decExp q.den := decExp_dvd q.den q.pos K hfin
  have hdvd2 : q.den ∣ q.num.toNat * 10 ^ decExp q.den := hdvd.mul_left _
  rw [Nat.cast_div hdvd2 (by exact_mod_cast q.pos.ne' : (q.den : ℚ) ≠ 0)]
  rw [Nat.cast_mul, toNat_num_cast q hq]
  rw [mul_div_right_comm, Rat.num_div_den]
  push_cast
  ring

/-- A rational with unit denominator is its numerator. -/
theorem den_one_cast (q : ℚ) (h : q.den = 1) : ((q.num : ℤ) : ℚ) = q := by
  conv_rhs => rw [← Rat.num_div_den q, h]
  norm_num

/-- In the value range the round-trip claim ends up being about — zero, or at
least `10⁻⁶` and below `10²¹` — the JavaScript rendering is the plain decimal
one. -/
theorem renderPosChars_eq_dec (q : ℚ)
    (h : q = 0 ∨ (1 / 10 ^ 6 ≤ q ∧ q < 10 ^ 21)) :
    renderPosChars q = renderDecChars q := by
  unfold renderPosChars
  rcases h with h0 | ⟨h1, h2⟩
  · subst h0
    rw [if_pos rfl]
    decide
  · have hq0 : q ≠ 0 := by
      intro hcon
      rw [hcon] at h1
      norm_num at h1
    rw [if_neg hq0, if_neg (by push_neg; exact ⟨h1, h2⟩)]

/-- `parseFloat` inverts the plain-decimal rendering of a nonnegative
rational whose denominator divides a power of ten. -/
theorem parseFloatTok_renderDec (q : ℚ) (hq : 0 ≤ q) (K : ℕ)
    (hfin : q.den ∣ 10 ^ K) :
    parseFloatTok (renderDecChars q) = q := by
  unfold renderDecChars
  by_cases hk0 : decExp q.den = 0
  · rw [if_pos hk0]
    have hden1 : q.den = 1 := decExp_eq_zero _ hk0
    unfold parseFloatTok
    have hspan : (natChars q.num.toNat).span isDigitC =
        (natChars q.num.toNat, []) := by
      have h := span_digits (natChars q.num.toNat) []
        (natChars_digits _) (by intro c hc; simp at hc)
      simpa using h
    rw [hspan]
    dsimp only
    rw [natChars_val, toNat_num_cast q hq, den_one_cast q hden1]
  · rw [if_neg hk0]
    set k := decExp q.den with hkdef
    set m := q.num.toNat * 10 ^ k / q.den with hmdef
    have hk1 : 1 ≤ k := Nat.pos_of_ne_zero hk0
    have hmq : (m : ℚ) = q * 10 ^ k := renderScale q hq K hfin
    unfold parseFloatTok
    have hspan : ((natChars (m / 10 ^ k) ++
        '.' :: padChars k (m % 10 ^ k)).span isDigitC) =
        (natChars (m / 10 ^ k), '.' :: padChars k (m % 10 ^ k)) := by
      apply span_digits _ _ (natChars_digits _)
      intro c hc
      simp only [List.head?_cons, Option.some.injEq] at hc
      subst hc
      decide
    rw [hspan]
    have htw : (padChars k (m % 10 ^ k)).takeWhile isDigitC =
        padChars k (m % 10 ^ k) := by
      have h := takeWhile_digits (padChars k (m % 10 ^ k)) []
        (padChars_digits _ _) (by intro c hc; simp at hc)
      simpa using h
    have h2 := Nat.div_add_mod m (10 ^ k)
    have hsplit : ((m / 10 ^ k : ℕ) : ℚ) + ((m % 10 ^ k : ℕ) : ℚ) / 10 ^ k =
        (m : ℚ) / 10 ^ k := by
      field_simp
      calc ((m / 10 ^ k : ℕ) : ℚ) * 10 ^ k + ((m % 10 ^ k : ℕ) : ℚ)
          = ((10 ^ k * (m / 10 ^ k) + m % 10 ^ k : ℕ) : ℚ) := by
            push_cast
            ring
      _ = (m : ℚ) := by rw [h2]
    dsimp only
    split
    case _ f heq =>
      injection heq with heq1 heq2
      subst heq2
      rw [htw, natChars_val,
        padChars_val k _ (Nat.mod_lt _ (by positivity)), padChars_length]
      rw [hsplit, hmq]
      rw [mul_div_assoc, div_self (by positivity : (10 : ℚ) ^ k ≠ 0), mul_one]
    case _ hne => exact absurd rfl (hne (padChars k (m % 10 ^ k)))

/-- The regex alpha token consumes exactly the plain-decimal rendering of the
alpha, leaving the remainder that starts with a non-digit non-dot
character. -/
theorem alphaTok_renderDec (q : ℚ) (hq : 0 ≤ q) (K : ℕ)
    (hfin : q.den ∣ 10 ^ K) (rest : List Char)
    (hr : ∀ c, rest.head? = some c → isDigitC c = false ∧ c ≠ '.') :
    alphaTok (renderDecChars q ++ rest) = some (renderDecChars q, rest) := by
  unfold renderDecChars alphaTok
  by_cases hk0 : decExp q.den = 0
  · rw [if_pos hk0]
    rcases rest with _ | ⟨c, r⟩
    · have hspan : (natChars q.num.toNat ++ []).span isDigitC =
          (natChars q.num.toNat, []) :=
        span_digits _ [] (natChars_digits _) (by intro c hc; simp at hc)
      rw [hspan]
      dsimp only
      obtain ⟨c0, cs, hds⟩ :=
        List.exists_cons_of_ne_nil (natChars_ne_nil q.num.toNat)
      rw [hds]
      rfl
    · have hcdot : c ≠ '.' := (hr c (by simp)).2
      have hc1 : isDigitC c = false := (hr c (by simp)).1
      have hspan : (natChars q.num.toNat ++ c :: r).span isDigitC =
          (natChars q.num.toNat, c :: r) :=
        span_digits _ _ (natChars_digits _) (by
          intro c2 hc2
          simp only [List.head?_cons, Option.some.injEq] at hc2
          subst hc2
          exact hc1)
      rw [hspan]
      dsimp only
      split
      · rename_i r2 heq
        injection heq with heq1
        exact absurd heq1 hcdot
      · obtain ⟨c0, cs, hds⟩ :=
          List.exists_cons_of_ne_nil (natChars_ne_nil q.num.toNat)
        rw [hds]
        rfl
  · rw [if_neg hk0]
    set k := decExp q.den with hkdef
    set m := q.num.toNat * 10 ^ k / q.den with hmdef
    have hk1 : 1 ≤ k := Nat.pos_of_ne_zero hk0
    have hpadne : padChars k (m % 10 ^ k) ≠ [] := by
      intro hcon
      have hl := padChars_length k (m % 10 ^ k)
      rw [hcon] at hl
      simp at hl
      omega
    rw [List.append_assoc, List.cons_append]
    have hspan : ((natChars (m / 10 ^ k) ++
        ('.' :: (padChars k (m % 10 ^ k) ++ rest))).span isDigitC) =
        (natChars (m / 10 ^ k), '.' :: (padChars k (m % 10 ^ k) ++ rest)) :=
      span_digits _ _ (natChars_digits _) (by
        intro c hc
        simp only [List.head?_cons, Option.some.injEq] at hc
        subst hc
        decide)
    rw [hspan]
    dsimp only
    have hspan2 : ((padChars k (m % 10 ^ k) ++ rest).span isDigitC) =
        (padChars k (m % 10 ^ k), rest) :=
      span_digits _ _ (padChars_digits _ _) (fun c hc => (hr c hc).1)
    split
    · rename_i r2 heq
      injection heq with heq1 heq2
      subst heq2
      rw [hspan2]
      obtain ⟨p0, ps, hpd⟩ := List.exists_cons_of_ne_nil hpadne
      rw [hpd]
      rfl
    · rename_i hne
      exact absurd rfl (hne (padChars k (m % 10 ^ k) ++ rest))

/-- Skipping whitespace before a non-whitespace character is a no-op. -/
theorem skipS_cons_nonspace (c : Char) (l : List Char)
    (h : isSpaceC c = false) : skipS (c :: l) = c :: l := by
  unfold skipS
  rw [List.dropWhile_cons, h]
  simp

/-- Skipping whitespace consumes a leading space. -/
theorem skipS_space_cons (l : List Char) : skipS (' ' :: l) = skipS l := by
  unfold skipS
  rw [List.dropWhile_cons]
  rw [show isSpaceC ' ' = true from rfl]
  simp

/-- Skipping whitespace before a digit run is a no-op. -/
theorem skipS_digits (ds rest : List Char) (hne : ds ≠ [])
    (hdig : ∀ c ∈ ds, isDigitC c = true) :
    skipS (ds ++ rest) = ds ++ rest := by
  obtain ⟨c, cs, rfl⟩ := List.exists_cons_of_ne_nil hne
  rw [List.cons_append]
  exact skipS_cons_nonspace _ _
    (digit_not_space c (hdig c (List.mem_cons_self _ _)))

/-- The regex atom `(\d+)` consumes exactly a leading digit run. -/
theorem digits1_digits (ds rest : List Char) (hne : ds ≠ [])
    (hdig : ∀ c ∈ ds, isDigitC c = true)
    (hrest : ∀ c, rest.head? = some c → isDigitC c = false) :
    digits1 (ds ++ rest) = some (ds, rest) := by
  unfold digits1
  rw [span_digits ds rest hdig hrest]
  dsimp only
  obtain ⟨c, cs, rfl⟩ := List.exists_cons_of_ne_nil hne
  rfl

/-- Consuming an expected character succeeds on that character. -/
theorem expectC_self (c : Char) (X : List Char) : expectC c (c :: X) = some X := by
  show (if c = c then some X else none) = some X
  rw [if_pos rfl]

/-- The optional `a` is consumed when present. -/
theorem optA_a (X : List Char) : optA ('a' :: X) = X := rfl

/-- A comma is not a digit, stated for the head of a comma-led remainder. -/
theorem comma_not_digit (X : List Char) :
    ∀ c, ((',' :: X).head? = some c) → isDigitC c = false := by
  intro c hc
  simp only [List.head?_cons, Option.some.injEq] at hc
  subst hc
  decide

/-- The optional alpha group consumes a comma, whitespace, and an alpha
token. -/
theorem optionalAlpha_comma (X t r2 : List Char)
    (h : alphaTok (skipS X) = some (t, r2)) :
    optionalAlpha (',' :: X) = some (some t, r2) := by
  unfold optionalAlpha
  show (match alphaTok (skipS X) with
    | none => none
    | some (t, r2) => some (some t, r2)) = some (some t, r2)
  rw [h]

set_option maxHeartbeats 1000000 in
/-- The color regex matches the canonical `rgba(d1, d2, d3, tok)` character
list at position 0, capturing the three digit groups and the alpha token. -/
theorem matchFrom_canonical (ds1 ds2 ds3 tok : List Char)
    (h1 : ∀ c ∈ ds1, isDigitC c = true) (hne1 : ds1 ≠ [])
    (h2 : ∀ c ∈ ds2, isDigitC c = true) (hne2 : ds2 ≠ [])
    (h3 : ∀ c ∈ ds3, isDigitC c = true) (hne3 : ds3 ≠ [])
    (htok : alphaTok (tok ++ [')']) = some (tok, [')']))
    (htokskip : skipS (tok ++ [')']) = tok ++ [')']) :
    matchFrom ('r' :: 'g' :: 'b' :: 'a' :: '(' ::
        (ds1 ++ ',' :: ' ' :: (ds2 ++ ',' :: ' ' :: (ds3 ++ ',' :: ' ' ::
          (tok ++ [')']))))) = some (ds1, ds2, ds3, some tok) := by
  unfold matchFrom
  simp only [Option.bind_eq_bind]
  rw [expectC_self]
  simp only [Option.some_bind]
  rw [expectC_self]
  simp only [Option.some_bind]
  rw [expectC_self]
  simp only [Option.some_bind]
  rw [optA_a, skipS_cons_nonspace '(' _ (by decide), expectC_self]
  simp only [Option.some_bind]
  rw [skipS_digits _ _ hne1 h1, digits1_digits _ _ hne1 h1 (comma_not_digit _)]
  simp only [Option.some_bind]
  rw [expectC_self]
  simp only [Option.some_bind]
  rw [skipS_space_cons, skipS_digits _ _ hne2 h2,
    digits1_digits _ _ hne2 h2 (comma_not_digit _)]
  simp only [Option.some_bind]
  rw [expectC_self]
  simp only [Option.some_bind]
  rw [skipS_space_cons, skipS_digits _ _ hne3 h3,
    digits1_digits _ _ hne3 h3 (comma_not_digit _)]
  simp only [Option.some_bind]
  rw [optionalAlpha_comma _ tok [')']
    (by rw [skipS_space_cons, htokskip]; exact htok)]
  simp only [Option.some_bind]
  rw [skipS_cons_nonspace ')' _ (by decide), expectC_self]
  simp only [Option.some_bind]
  rfl

/-- The character list of the canonical `rgba(R, G, B, A)` string, in
right-nested form, for a nonnegative alpha. -/
theorem formatRGBA_data (R G B : ℕ) (a : ℚ) (ha : 0 ≤ a) :
    (formatRGBA R G B a).data =
      'r' :: 'g' :: 'b' :: 'a' :: '(' ::
        (natChars R ++ ',' :: ' ' :: (natChars G ++ ',' :: ' ' ::
          (natChars B ++ ',' :: ' ' :: (renderPosChars a ++ [')'])))) := by
  unfold formatRGBA rgbaChars intChars
  rw [if_neg (not_lt.mpr (Int.natCast_nonneg R)),
    if_neg (not_lt.mpr (Int.natCast_nonneg G)),
    if_neg (not_lt.mpr (Int.natCast_nonneg B)),
    Int.toNat_natCast, Int.toNat_natCast, Int.toNat_natCast]
  unfold renderNumChars
  rw [if_neg (not_lt.mpr ha)]
  rw [show ("rgba(".data) = ['r', 'g', 'b', 'a', '('] from rfl,
    show (", ".data) = [',', ' '] from rfl,
    show (")".data) = [')'] from rfl]
  simp [List.append_assoc]

/-- The unanchored search finds the canonical string's match at position 0
with the expected capture groups, for an alpha that renders as a plain
decimal. -/
theorem rgbaSearch_format (R G B : ℕ) (a : ℚ) (ha : 0 ≤ a) (K : ℕ)
    (hfin : a.den ∣ 10 ^ K)
    (hdec : a = 0 ∨ (1 / 10 ^ 6 ≤ a ∧ a < 10 ^ 21)) :
    rgbaSearch (formatRGBA R G B a).data =
      some (natChars R, natChars G, natChars B, some (renderDecChars a)) := by
  have hpd : renderPosChars a = renderDecChars a := renderPosChars_eq_dec a hdec
  have htok : alphaTok (renderDecChars a ++ [')']) =
      some (renderDecChars a, [')']) := by
    apply alphaTok_renderDec a ha K hfin
    intro c hc
    simp only [List.head?_cons, Option.some.injEq] at hc
    subst hc
    exact ⟨by decide, by decide⟩
  have htokskip : skipS (renderDecChars a ++ [')']) =
      renderDecChars a ++ [')'] := by
    unfold renderDecChars
    by_cases hk0 : decExp a.den = 0
    · rw [if_pos hk0]
      exact skipS_digits _ _ (natChars_ne_nil _) (natChars_digits _)
    · rw [if_neg hk0]
      rw [List.append_assoc, List.cons_append]
      exact skipS_digits _ _ (natChars_ne_nil _) (natChars_digits _)
  have hm := matchFrom_canonical (natChars R) (natChars G) (natChars B)
    (renderDecChars a)
    (natChars_digits _) (natChars_ne_nil _)
    (natChars_digits _) (natChars_ne_nil _)
    (natChars_digits _) (natChars_ne_nil _)
    htok htokskip
  rw [formatRGBA_data R G B a ha, hpd]
  simp only [rgbaSearch]
  rw [hm]

/-- C3 counterexample: the formatter renders the alpha `10⁻⁷` in the
JavaScript exponent form, producing `"rgba(255, 0, 0, 1e-7)"`; the parser's
regex cannot consume `1e-7` as its `(\d*\.?\d+)` alpha group, the search
fails, and parsing falls back to opaque black — so format followed by parse
is not the identity on this valid RGBA tuple. -/
theorem format_parse_counterexample :
    formatRGBA 255 0 0 ((1 : ℚ) / 10 ^ 7) = "rgba(255, 0, 0, 1e-7)" ∧
    extractRGBA (some "rgba(255, 0, 0, 1e-7)") = (0, 0, 0, 1) ∧
    ((0 : ℚ), (0 : ℚ), (0 : ℚ), (1 : ℚ)) ≠
      ((255 : ℚ), (0 : ℚ), (0 : ℚ), (1 : ℚ) / 10 ^ 7) := by
  refine ⟨by decide, by decide, by decide⟩

/-- C3 amended: formatting a valid RGBA tuple to the canonical string and
parsing it back is the identity whenever the alpha renders as a plain
decimal: for all integer channels up to 255 and every finite-decimal alpha
`n / 10^k` in `[0, 1]` that is zero or at least `10⁻⁶`, `extractRGBA`
recovers exactly the original tuple.  (Positive alphas below `10⁻⁶` render
in exponent form and take the fallback instead.) -/
theorem format_parse_amended (R G B : ℕ) (hR : R ≤ 255) (hG : G ≤ 255)
    (hB : B ≤ 255) (n k : ℕ) (hn : n ≤ 10 ^ k)
    (ha6 : n = 0 ∨ 10 ^ k ≤ n * 10 ^ 6) :
    extractRGBA (some (formatRGBA R G B ((n : ℚ) / 10 ^ k))) =
      ((R : ℚ), (G : ℚ), (B : ℚ), (n : ℚ) / 10 ^ k) := by
  set a := (n : ℚ) / 10 ^ k with hadef
  have ha : 0 ≤ a := by positivity
  have hfin : a.den ∣ 10 ^ k := by
    have h1 : a = Rat.divInt (n : ℤ) ((10 ^ k : ℕ) : ℤ) := by
      rw [Rat.divInt_eq_div]
      push_cast
      rw [hadef]
    rw [h1]
    have h2 := Rat.den_dvd (n : ℤ) ((10 ^ k : ℕ) : ℤ)
    exact_mod_cast h2
  have hdec : a = 0 ∨ (1 / 10 ^ 6 ≤ a ∧ a < 10 ^ 21) := by
    rcases ha6 with h0 | h6
    · left
      rw [hadef, h0]
      norm_num
    · right
      refine ⟨?_, ?_⟩
      · rw [hadef, div_le_div_iff₀ (by positivity) (by positivity), one_mul]
        exact_mod_cast h6
      · have ha1 : a ≤ 1 := by
          rw [hadef, div_le_one (by positivity)]
          exact_mod_cast hn
        exact lt_of_le_of_lt ha1 (by norm_num)
  have hsearch := rgbaSearch_format R G B a ha k hfin hdec
  have hwhite : formatRGBA R G B a ≠ "white" := by
    intro hcon
    have hd := congrArg String.data hcon
    rw [formatRGBA_data R G B a ha] at hd
    simp [String.data] at hd
  unfold extractRGBA
  rw [if_neg (by simpa using hwhite)]
  dsimp only
  rw [hsearch]
  dsimp only
  rw [natChars_val, natChars_val, natChars_val,
    parseFloatTok_renderDec a ha k hfin]

/-- Witness for the amended C3 at the concrete tuple `(255, 0, 0)` with
alpha `5/10`. -/
theorem format_parse_amended_witness :
    extractRGBA (some (formatRGBA 255 0 0 ((5 : ℚ) / 10 ^ 1))) =
      ((255 : ℚ), (0 : ℚ), (0 : ℚ), (5 : ℚ) / 10 ^ 1) :=
  format_parse_amended 255 0 0 (by norm_num) (by norm_num) (by norm_num)
    5 1 (by norm_num) (Or.inr (by norm_num))
